import Mathlib

set_option synthInstance.maxSize 4096
set_option maxRecDepth 4096

/-!
Shallow embedding of the Winux-PTree core (Rust) for specification checking.

Conventions:
- A byte string (`Str`) is a list of naturals (the UTF-8 bytes of a Rust
  `String`); a filesystem path (`FsPath`) is its list of components, which is
  how Rust `Path` equality and hashing behave (component-wise).
- Machine integers are naturals with explicit `% 2^w` where the Rust code
  truncates (`as u32`).
- `bincode` (fixed-int little-endian layout: `u64` length prefixes for
  sequences and maps, `u32` enum tags, one byte per `bool`) is modelled by the
  `encLE`/`encBytes`/`encListN`/`encOpt`/`encBool` family below, and fallible
  deserialization by the corresponding parsers returning `Option (α × rest)`.
-/

/-- A Rust `String`, as its list of bytes. -/
abbrev Str := List Nat

/-- A Rust `PathBuf`, as its list of components (Rust path equality is
component-wise). -/
abbrev FsPath := List Str

-- ===========================================================================
-- Little-endian fixed-width integer codec (bincode fixint layout)
-- ===========================================================================

/-- Encode `n` as `w` little-endian bytes (`n.to_le_bytes()`); values at or
above `256^w` are truncated, matching an `as` cast in Rust. -/
def encLE : Nat → Nat → List Nat
  | 0, _ => []
  | w + 1, n => n % 256 :: encLE w (n / 256)

/-- Parse `w` little-endian bytes, returning the value and remaining input. -/
def decLE : Nat → List Nat → Option (Nat × List Nat)
  | 0, l => some (0, l)
  | _ + 1, [] => none
  | w + 1, b :: bs =>
    match decLE w bs with
    | some (v, rest) => some (b + 256 * v, rest)
    | none => none

/-- bincode layout of a byte sequence / string: a `u64` length then the raw
bytes. -/
def encBytes (s : List Nat) : List Nat := encLE 8 s.length ++ s

/-- Parse a `u64`-length-prefixed byte sequence. -/
def decBytes (l : List Nat) : Option (List Nat × List Nat) :=
  match decLE 8 l with
  | some (n, rest) =>
    if n ≤ rest.length then some (rest.take n, rest.drop n) else none
  | none => none

/-- bincode layout of a sequence: a `u64` element count then the elements. -/
def encListN (f : α → List Nat) (xs : List α) : List Nat :=
  encLE 8 xs.length ++ xs.foldr (fun x acc => f x ++ acc) []

/-- Parse exactly `n` consecutive elements. -/
def decCount (g : List Nat → Option (α × List Nat)) :
    Nat → List Nat → Option (List α × List Nat)
  | 0, l => some ([], l)
  | n + 1, l =>
    match g l with
    | some (x, rest) =>
      match decCount g n rest with
      | some (xs, rest₂) => some (x :: xs, rest₂)
      | none => none
    | none => none

/-- Parse a `u64`-count-prefixed sequence. -/
def decListN (g : List Nat → Option (α × List Nat)) (l : List Nat) :
    Option (List α × List Nat) :=
  match decLE 8 l with
  | some (n, rest) => decCount g n rest
  | none => none

/-- bincode layout of an `Option`: a `u32` enum tag (0 = `None`, 1 = `Some`)
then the payload. -/
def encOpt (f : α → List Nat) : Option α → List Nat
  | none => encLE 4 0
  | some x => encLE 4 1 ++ f x

/-- Parse a `u32`-tagged `Option`. -/
def decOpt (g : List Nat → Option (α × List Nat)) (l : List Nat) :
    Option (Option α × List Nat) :=
  match decLE 4 l with
  | some (0, rest) => some (none, rest)
  | some (1, rest) =>
    match g rest with
    | some (x, rest₂) => some (some x, rest₂)
    | none => none
  | _ => none

/-- bincode layout of a `bool`: one byte, 0 or 1. -/
def encBool (b : Bool) : List Nat := [if b then 1 else 0]

/-- Parse a one-byte `bool`. -/
def decBool : List Nat → Option (Bool × List Nat)
  | 0 :: rest => some (false, rest)
  | 1 :: rest => some (true, rest)
  | _ => none

/-- A path is encoded as the sequence of its component strings. -/
def encPath (p : FsPath) : List Nat := encListN encBytes p

/-- Parse a path. -/
def decPath (l : List Nat) : Option (FsPath × List Nat) :=
  decListN decBytes l

/-- Bound needed for a string to round-trip through its `u64` length prefix. -/
def validStr (s : Str) : Bool := s.length < 256 ^ 8

/-- Bound needed for a path to round-trip. -/
def validPath (p : FsPath) : Bool := decide (p.length < 256 ^ 8) && p.all validStr

/-- Model of `HashMap::get`: first matching key. -/
def alookup [DecidableEq κ] : List (κ × α) → κ → Option α
  | [], _ => none
  | (k₂, v) :: rest, k => if k₂ = k then some v else alookup rest k

/-- Model of `HashMap::insert`: replace the value in place, or append a new binding. -/
def aupdate [DecidableEq κ] : List (κ × α) → κ → α → List (κ × α)
  | [], k, v => [(k, v)]
  | (k₂, w) :: rest, k, v =>
    if k₂ = k then (k₂, v) :: rest else (k₂, w) :: aupdate rest k v

-- ===========================================================================
-- Directory entry of the lazy cache (ptree-cache crate)
-- ===========================================================================

/-- Modelled from the spec: the `ptree-cache` crate declares `DirEntry` (in its
`cache.rs`) and `RkyvDirEntry` (in `cache_rkyv.rs`); neither file is present in
the sources. The field list and order are reconstructed from the construction
sites in `cache_lazy.rs` (`LazyCache::get_entry` / `append_entry`) and the
spec's Directory Entry data model (§3). The two structs have identical fields
(the conversion in `cache_lazy.rs` copies field by field), so one type models
both; the `chrono` timestamp is abstracted as a scalar. -/
structure LDirEntry where
  path : FsPath
  name : Str
  modified : Nat
  content_hash : Nat
  children : List Str
  symlink_target : Option Str
  is_hidden : Bool
  is_dir : Bool
deriving DecidableEq

/-- Model of `bincode::serialize(&rkyv_entry)`: fields in declaration order. -/
def encodeEntry (e : LDirEntry) : List Nat :=
  encPath e.path ++ encBytes e.name ++ encLE 8 e.modified ++
    encLE 8 e.content_hash ++ encListN encBytes e.children ++
    encOpt encBytes e.symlink_target ++ encBool e.is_hidden ++ encBool e.is_dir

/-- Model of `bincode::deserialize::<RkyvDirEntry>`: sequential field parse; `none` is
the `CorruptRecord`-style decode failure. Trailing bytes are allowed, as by
`bincode`'s legacy `deserialize` entry point. -/
def decodeEntry (l : List Nat) : Option (LDirEntry × List Nat) :=
  match decPath l with
  | none => none
  | some (path, l₁) =>
    match decBytes l₁ with
    | none => none
    | some (name, l₂) =>
      match decLE 8 l₂ with
      | none => none
      | some (modified, l₃) =>
        match decLE 8 l₃ with
        | none => none
        | some (content_hash, l₄) =>
          match decListN decBytes l₄ with
          | none => none
          | some (children, l₅) =>
            match decOpt decBytes l₅ with
            | none => none
            | some (symlink_target, l₆) =>
              match decBool l₆ with
              | none => none
              | some (is_hidden, l₇) =>
                match decBool l₇ with
                | none => none
                | some (is_dir, l₈) =>
                  some ({ path, name, modified, content_hash, children,
                          symlink_target, is_hidden, is_dir }, l₈)

/-- A directory entry is valid when every variable-width field fits its
`bincode` length prefix and the whole record fits the 4-byte framing prefix
that `append_entry` writes (`serialized.len() as u32`). -/
def validEntry (e : LDirEntry) : Bool :=
  validPath e.path && validStr e.name && decide (e.modified < 256 ^ 8) &&
    decide (e.content_hash < 256 ^ 8) &&
    decide (e.children.length < 256 ^ 8) && e.children.all validStr &&
    decide ((e.symlink_target.getD []).length < 256 ^ 8) &&
    decide ((encodeEntry e).length < 256 ^ 4)

/-- Modelled from the spec: `RkyvCacheIndex` is declared in the missing
`cache_rkyv.rs`; its fields follow the spec's Cache Index data model (§3) and
the accessors in `cache_lazy.rs` — offsets map, scan metadata, skip stats and
the opaque change-journal cursor (`usn_state`), abstracted as a scalar. -/
structure RkyvCacheIndex where
  offsets : List (FsPath × Nat)
  last_scan : Nat
  root : FsPath
  last_scanned_root : FsPath
  skip_stats : List (Str × Nat)
  usn_state : Nat
deriving DecidableEq

/-- Model of `RkyvCacheIndex::new()`: the empty index with default fields. -/
def RkyvCacheIndex.new : RkyvCacheIndex :=
  { offsets := [], last_scan := 0, root := [], last_scanned_root := [],
    skip_stats := [], usn_state := 0 }

/-- One offsets-map binding: a path and its `u64` byte offset. -/
def encOffBinding (x : FsPath × Nat) : List Nat := encPath x.1 ++ encLE 8 x.2

/-- Parse one offsets-map binding. -/
def decOffBinding (l : List Nat) : Option ((FsPath × Nat) × List Nat) :=
  match decPath l with
  | none => none
  | some (p, l₁) =>
    match decLE 8 l₁ with
    | none => none
    | some (off, l₂) => some ((p, off), l₂)

/-- One skip-stats binding: a rule name and its `u64` count. -/
def encStatBinding (x : Str × Nat) : List Nat := encBytes x.1 ++ encLE 8 x.2

/-- Parse one skip-stats binding. -/
def decStatBinding (l : List Nat) : Option ((Str × Nat) × List Nat) :=
  match decBytes l with
  | none => none
  | some (s, l₁) =>
    match decLE 8 l₁ with
    | none => none
    | some (n, l₂) => some ((s, n), l₂)

/-- Model of `bincode::serialize(&self.index)`. -/
def encodeIndex (i : RkyvCacheIndex) : List Nat :=
  encListN encOffBinding i.offsets ++ encLE 8 i.last_scan ++ encPath i.root ++
    encPath i.last_scanned_root ++ encListN encStatBinding i.skip_stats ++
    encLE 8 i.usn_state

/-- Model of `bincode::deserialize::<RkyvCacheIndex>`. -/
def decodeIndex (l : List Nat) : Option (RkyvCacheIndex × List Nat) :=
  match decListN decOffBinding l with
  | none => none
  | some (offsets, l₁) =>
    match decLE 8 l₁ with
    | none => none
    | some (last_scan, l₂) =>
      match decPath l₂ with
      | none => none
      | some (root, l₃) =>
        match decPath l₃ with
        | none => none
        | some (last_scanned_root, l₄) =>
          match decListN decStatBinding l₄ with
          | none => none
          | some (skip_stats, l₅) =>
            match decLE 8 l₅ with
            | none => none
            | some (usn_state, l₆) =>
              some ({ offsets, last_scan, root, last_scanned_root, skip_stats,
                      usn_state }, l₆)

/-- Validity bounds letting an index round-trip through its length prefixes. -/
def validIndex (i : RkyvCacheIndex) : Bool :=
  decide (i.offsets.length < 256 ^ 8) &&
    i.offsets.all (fun x => validPath x.1 && decide (x.2 < 256 ^ 8)) &&
    decide (i.last_scan < 256 ^ 8) && validPath i.root &&
    validPath i.last_scanned_root &&
    decide (i.skip_stats.length < 256 ^ 8) &&
    i.skip_stats.all (fun x => validStr x.1 && decide (x.2 < 256 ^ 8)) &&
    decide (i.usn_state < 256 ^ 8)

/-- A file name as (stem, extension); Rust `Path::with_extension` replaces the
extension component. -/
abbrev FName := Str × Str

/-- Outcome of a Rust call that may panic instead of returning. -/
inductive RustOutcome (α : Type) where
  | panicked
  | returned (val : α)
deriving DecidableEq

/-- Decidable equality for `Except`, needed to evaluate call outcomes. -/
instance [DecidableEq ε] [DecidableEq α] : DecidableEq (Except ε α) := fun x y =>
  match x, y with
  | .error a, .error b =>
    if h : a = b then isTrue (by rw [h]) else isFalse (by simp [h])
  | .ok a, .ok b =>
    if h : a = b then isTrue (by rw [h]) else isFalse (by simp [h])
  | .error _, .ok _ => isFalse (by simp)
  | .ok _, .error _ => isFalse (by simp)

/-- Little-endian value of a byte list (`u32::from_le_bytes` on 4 bytes). -/
def leVal (l : List Nat) : Nat := l.foldr (fun b acc => b + 256 * acc) 0

/-- Model of `LazyCache`: in-memory index, optional memory-mapped data file (modelled as
its byte contents), and the bounded hot-entry window (`entry_cache`, front =
most recently used). -/
structure LazyCache where
  index : RkyvCacheIndex
  mmap : Option (List Nat)
  data_path : FName
  entry_cache : List (FsPath × LDirEntry)
  entry_cache_size : Nat
deriving DecidableEq

/-- Model of `LazyCache::open`: load the index if the `.idx` file parses (fall back to
an empty index otherwise), map the `.dat` file iff it exists and is non-empty,
and start with an empty hot-entry window of capacity 1000. -/
def openLazy (idxFile : Option (List Nat)) (datFile : Option (List Nat))
    (dataPath : FName) : LazyCache :=
  let index :=
    match idxFile with
    | some bytes =>
      match decodeIndex bytes with
      | some (i, _) => i
      | none => RkyvCacheIndex.new
    | none => RkyvCacheIndex.new
  let mmap :=
    match datFile with
    | some bytes => if 0 < bytes.length then some bytes else none
    | none => none
  { index, mmap, data_path := dataPath, entry_cache := [],
    entry_cache_size := 1000 }

/-- Model of `LazyCache::get_entry`. Hot-window hit: move the pair to the front and
return a clone. Miss: resolve the offset, slice the mapping at it (Rust
`&mmap[offset..]` panics when the offset exceeds the mapped length), check the
4-byte length prefix against the remaining slice, deserialize, and insert into
the window, popping the back when over capacity. Decode failure propagates as
an error (`?`); absent path / absent mapping / truncated record give `none`. -/
def getEntry (c : LazyCache) (p : FsPath) :
    RustOutcome (Except Unit (Option LDirEntry) × LazyCache) :=
  match alookup c.entry_cache p with
  | some e =>
    .returned (.ok (some e),
      { c with entry_cache := (p, e) :: c.entry_cache.eraseP (fun q => q.1 == p) })
  | none =>
    match alookup c.index.offsets p with
    | none => .returned (.ok none, c)
    | some off =>
      match c.mmap with
      | none => .returned (.ok none, c)
      | some m =>
        if m.length < off then .panicked
        else
          let slice := m.drop off
          if slice.length < 4 then .returned (.ok none, c)
          else
            let len := leVal (slice.take 4)
            if slice.length < 4 + len then .returned (.ok none, c)
            else
              match decodeEntry ((slice.drop 4).take len) with
              | none => .returned (.error (), c)
              | some (e, _) =>
                let pushed := (p, e) :: c.entry_cache
                let trimmed :=
                  if c.entry_cache_size < pushed.length then pushed.dropLast
                  else pushed
                .returned (.ok (some e), { c with entry_cache := trimmed })

/-- The fold inside `LazyCache::get_all`: iterate the index keys through
`get_entry`, propagating panics and decode errors (`?`) and inserting each
`Some` result. -/
def getAllGo : List FsPath → LazyCache → List (FsPath × LDirEntry) →
    RustOutcome (Except Unit (List (FsPath × LDirEntry) × LazyCache))
  | [], c, acc => .returned (.ok (acc, c))
  | p :: ps, c, acc =>
    match getEntry c p with
    | .panicked => .panicked
    | .returned (.error e, _) => .returned (.error e)
    | .returned (.ok none, c₂) => getAllGo ps c₂ acc
    | .returned (.ok (some e), c₂) => getAllGo ps c₂ (aupdate acc p e)

/-- Model of `LazyCache::get_all`. -/
def getAll (c : LazyCache) :
    RustOutcome (Except Unit (List (FsPath × LDirEntry) × LazyCache)) :=
  getAllGo (c.index.offsets.map (·.1)) c []

/-- Model of `LazyCache::append_entry` on a data file with the given current contents:
write a 4-byte little-endian length prefix (`serialized.len() as u32`, hence
truncated mod 2^32 by `encLE 4`) followed by the payload at the end of the
file, and return the offset at which the prefix begins. -/
def appendEntry (dataFile : List Nat) (e : LDirEntry) : List Nat × Nat :=
  let payload := encodeEntry e
  (dataFile ++ encLE 4 payload.length ++ payload, dataFile.length)

-- ===========================================================================
-- File-system state and atomic save (save_index / DiskCache::save)
-- ===========================================================================

/-- Directory contents: file names to byte contents. -/
abbrev FsMap := List (FName × List Nat)

/-- Write (create or truncate-and-replace) a file. -/
def setFile (fs : FsMap) (n : FName) (bytes : List Nat) : FsMap :=
  aupdate fs n bytes

/-- Remove a file. -/
def removeFile (fs : FsMap) (n : FName) : FsMap :=
  fs.filter (fun q => !(q.1 == n))

/-- Read a file. -/
def lookupFile (fs : FsMap) (n : FName) : Option (List Nat) := alookup fs n

/-- Model of `Path::with_extension`. -/
def withExt (n : FName) (e : Str) : FName := (n.1, e)

/-- The bytes of `"tmp"`. -/
def strTmp : Str := [116, 109, 112]

/-- The bytes of `"idx"`. -/
def strIdx : Str := [105, 100, 120]

/-- The individual file-system effects of `LazyCache::save_index`, in program
order: create the sibling `.tmp` file, write the serialized index, sync (no
visible content change), and atomically rename the temp file over the `.idx`
destination. A crash between steps leaves the prefix applied. -/
def saveIndexOps (c : LazyCache) (cachePath : FName) : List (FsMap → FsMap) :=
  let indexPath := withExt cachePath strIdx
  let tempPath := withExt indexPath strTmp
  let data := encodeIndex c.index
  [fun fs => setFile fs tempPath [],
   fun fs => setFile fs tempPath data,
   fun fs => fs,
   fun fs =>
     match lookupFile fs tempPath with
     | some bytes => setFile (removeFile fs tempPath) indexPath bytes
     | none => fs]

/-- Run a prefix of the effect list over a file-system state. -/
def runOps (ops : List (FsMap → FsMap)) (fs : FsMap) : FsMap :=
  ops.foldl (fun s op => op s) fs

-- ===========================================================================
-- DiskCache (src/cache.rs): whole-file serialized cache
-- ===========================================================================

/-- Model of `DirEntry` of `src/cache.rs`: path, name, observation timestamp, size and
the sorted list of immediate child names. -/
structure DDirEntry where
  path : FsPath
  name : Str
  modified : Nat
  size : Nat
  children : List Str
deriving DecidableEq

/-- One serialized `DirEntry` (bincode, fields in declaration order). -/
def encDEntry (e : DDirEntry) : List Nat :=
  encPath e.path ++ encBytes e.name ++ encLE 8 e.modified ++ encLE 8 e.size ++
    encListN encBytes e.children

/-- Parse one `DirEntry`. -/
def decDEntry (l : List Nat) : Option (DDirEntry × List Nat) :=
  match decPath l with
  | none => none
  | some (path, l₁) =>
    match decBytes l₁ with
    | none => none
    | some (name, l₂) =>
      match decLE 8 l₂ with
      | none => none
      | some (modified, l₃) =>
        match decLE 8 l₃ with
        | none => none
        | some (size, l₄) =>
          match decListN decBytes l₄ with
          | none => none
          | some (children, l₅) => some ({ path, name, modified, size, children }, l₅)

/-- Round-trip bounds for one `DirEntry`. -/
def validDEntry (e : DDirEntry) : Bool :=
  validPath e.path && validStr e.name && decide (e.modified < 256 ^ 8) &&
    decide (e.size < 256 ^ 8) && decide (e.children.length < 256 ^ 8) &&
    e.children.all validStr

/-- Model of `DiskCache` of `src/cache.rs`: entries map, scan metadata, and the
non-serialized (`serde(skip)`) write buffer and flush threshold. -/
structure DiskCacheM where
  entries : List (FsPath × DDirEntry)
  last_scan : Nat
  root : FsPath
  last_scanned_root : FsPath
  pending_writes : List (FsPath × DDirEntry)
  flush_threshold : Nat
deriving DecidableEq

/-- One entries-map binding. -/
def encEntryBinding (x : FsPath × DDirEntry) : List Nat :=
  encPath x.1 ++ encDEntry x.2

/-- Parse one entries-map binding. -/
def decEntryBinding (l : List Nat) : Option ((FsPath × DDirEntry) × List Nat) :=
  match decPath l with
  | none => none
  | some (p, l₁) =>
    match decDEntry l₁ with
    | none => none
    | some (e, l₂) => some ((p, e), l₂)

/-- Model of `bincode::serialize(&self)` for `DiskCache` (the two `serde(skip)` fields
are not written). -/
def encodeDiskCache (c : DiskCacheM) : List Nat :=
  encListN encEntryBinding c.entries ++ encLE 8 c.last_scan ++
    encPath c.root ++ encPath c.last_scanned_root

/-- Model of `bincode::deserialize::<DiskCache>`: the `serde(skip)` fields come back as
defaults (empty buffer, zero threshold). -/
def decodeDiskCache (l : List Nat) : Option DiskCacheM :=
  match decListN decEntryBinding l with
  | none => none
  | some (entries, l₁) =>
    match decLE 8 l₁ with
    | none => none
    | some (last_scan, l₂) =>
      match decPath l₂ with
      | none => none
      | some (root, l₃) =>
        match decPath l₃ with
        | none => none
        | some (last_scanned_root, _) =>
          some { entries, last_scan, root, last_scanned_root,
                 pending_writes := [], flush_threshold := 0 }

/-- Round-trip bounds for a `DiskCache`. -/
def validDiskCache (c : DiskCacheM) : Bool :=
  decide (c.entries.length < 256 ^ 8) &&
    c.entries.all (fun x => validPath x.1 && validDEntry x.2) &&
    decide (c.last_scan < 256 ^ 8) && validPath c.root &&
    validPath c.last_scanned_root

/-- A fresh, empty `DiskCache` (`Utc::now()` abstracted as the `now`
parameter). -/
def freshDiskCache (now : Nat) : DiskCacheM :=
  { entries := [], last_scan := now, root := [], last_scanned_root := [],
    pending_writes := [], flush_threshold := 10000 }

/-- Model of `DiskCache::open` on the cache file's contents (`none` = file absent).
Returns the resulting cache and the file contents after the call: a file that
fails to deserialize is deleted (`fs::remove_file`) and replaced by a fresh
in-memory cache. -/
def openDisk (file : Option (List Nat)) (now : Nat) :
    DiskCacheM × Option (List Nat) :=
  match file with
  | some data =>
    match decodeDiskCache data with
    | some c =>
      ({ c with pending_writes := [], flush_threshold := 10000 }, some data)
    | none => (freshDiskCache now, none)
  | none => (freshDiskCache now, none)

/-- Model of `DiskCache::flush_pending_writes`: drain the buffer into the entries map. -/
def flushPending (c : DiskCacheM) : DiskCacheM :=
  { c with
    entries := c.pending_writes.foldl (fun m q => aupdate m q.1 q.2) c.entries,
    pending_writes := [] }

/-- Model of `DiskCache::buffer_entry` (also `add_entry`): push onto the buffer, then
flush if the threshold is reached. -/
def bufferEntry (c : DiskCacheM) (p : FsPath) (e : DDirEntry) : DiskCacheM :=
  let c₂ := { c with pending_writes := c.pending_writes ++ [(p, e)] }
  if c.flush_threshold ≤ c₂.pending_writes.length then flushPending c₂ else c₂

/-- Model of `DiskCache::save`: flush, then write-temp / sync / rename, as an effect
list over the file system; also returns the flushed in-memory cache. -/
def saveDisk (c : DiskCacheM) (path : FName) :
    DiskCacheM × List (FsMap → FsMap) :=
  let c₂ := flushPending c
  let data := encodeDiskCache c₂
  let tempPath := withExt path strTmp
  (c₂,
   [fun fs => setFile fs tempPath [],
    fun fs => setFile fs tempPath data,
    fun fs => fs,
    fun fs =>
      match lookupFile fs tempPath with
      | some bytes => setFile (removeFile fs tempPath) path bytes
      | none => fs])

-- ===========================================================================
-- Tree rendering (print_tree / print_colored_tree / populate_json)
-- ===========================================================================

/-- Model of `Path::join` with one child name, under Rust component-wise path equality:
an empty or `"."` component is dropped by `Path::components`, so joining it
yields a path equal to the parent — which is exactly how a children list can
resolve back to an ancestor (a self-referential entry). Any other name extends
the path by one component. -/
def joinPath (p : FsPath) (c : Str) : FsPath :=
  if c = [] ∨ c = [46] then p else p ++ [c]

/-- Byte-lexicographic order on strings (Rust `String` ordering). -/
def lexLe : Str → Str → Bool
  | [], _ => true
  | _ :: _, [] => false
  | a :: as, b :: bs => if a < b then true else if a = b then lexLe as bs else false

/-- Insert into a sorted list (used to model `Vec::sort`). -/
def insertSorted (x : Str) : List Str → List Str
  | [] => [x]
  | y :: ys => if lexLe x y then x :: y :: ys else y :: insertSorted x ys

/-- Model of `children.sort()`: deterministic sorted order of the child names. -/
def sortStrs (l : List Str) : List Str := l.foldr insertSorted []

/-- The bytes of the branch glyph `"├── "`. -/
def glyphTee : Str := [226, 148, 156, 226, 148, 128, 226, 148, 128, 32]

/-- The bytes of the branch glyph `"└── "`. -/
def glyphElbow : Str := [226, 148, 148, 226, 148, 128, 226, 148, 128, 32]

/-- The bytes of the continuation glyph `"│   "`. -/
def glyphPipe : Str := [226, 148, 130, 32, 32, 32]

/-- Four spaces. -/
def glyphSpace : Str := [32, 32, 32, 32]

/-- ANSI color wrapping applied by the `colored` crate. -/
def colorize (code : Nat) (s : Str) : Str :=
  [27, 91, code, 109] ++ s ++ [27, 91, 48, 109]

/-- One plain output line of `print_tree`. -/
def mkAsciiLine (pfx : Str) (isLastChild : Bool) (c : Str) : Str :=
  pfx ++ (if isLastChild then glyphElbow else glyphTee) ++ c ++ [10]

/-- One output line of `print_colored_tree` (cyan branch, bright-blue name). -/
def mkColoredLine (pfx : Str) (isLastChild : Bool) (c : Str) : Str :=
  pfx ++ colorize 36 (if isLastChild then glyphElbow else glyphTee) ++
    colorize 94 c ++ [10]

/-- The per-child loop body shared verbatim by `print_tree` and
`print_colored_tree` (they differ only in how a line is rendered): emit the
branch line for each child, recurse into the joined child path threading the
shared visited set, and concatenate the output. The parent's `is_last` selects
the continuation prefix, exactly as in the source. -/
def printChildren (mkLine : Str → Bool → Str → Str)
    (walk : FsPath → List FsPath → Str → Bool → Option (Str × List FsPath))
    (path : FsPath) (pfx : Str) (isLast : Bool) :
    List Str → List FsPath → Option (Str × List FsPath)
  | [], visited => some ([], visited)
  | c :: cs, visited =>
    let isLastChild := cs.isEmpty
    let childPfx := if isLast then glyphSpace else glyphPipe
    let line := mkLine pfx isLastChild c
    match walk (joinPath path c) visited (pfx ++ childPfx) isLastChild with
    | none => none
    | some (out, visited₂) =>
      match printChildren mkLine walk path pfx isLast cs visited₂ with
      | none => none
      | some (out₂, visited₃) => some (line ++ out ++ out₂, visited₃)

/-- Model of `DiskCache::print_tree`, with an explicit recursion-depth fuel: the visited
guard returns early on a repeated path, otherwise the path is marked visited
and, if it has an entry, its sorted children are walked. `none` only when the
fuel runs out. -/
def printTree (entries : List (FsPath × DDirEntry)) :
    Nat → FsPath → List FsPath → Str → Bool → Option (Str × List FsPath)
  | 0, _, _, _, _ => none
  | fuel + 1, path, visited, pfx, isLast =>
    if path ∈ visited then some ([], visited)
    else
      let visited₂ := path :: visited
      match alookup entries path with
      | none => some ([], visited₂)
      | some entry =>
        printChildren mkAsciiLine (printTree entries fuel) path pfx isLast
          (sortStrs entry.children) visited₂

/-- Model of `DiskCache::print_colored_tree`: identical traversal, colored lines. -/
def printColoredTree (entries : List (FsPath × DDirEntry)) :
    Nat → FsPath → List FsPath → Str → Bool → Option (Str × List FsPath)
  | 0, _, _, _, _ => none
  | fuel + 1, path, visited, pfx, isLast =>
    if path ∈ visited then some ([], visited)
    else
      let visited₂ := path :: visited
      match alookup entries path with
      | none => some ([], visited₂)
      | some entry =>
        printChildren mkColoredLine (printColoredTree entries fuel) path pfx
          isLast (sortStrs entry.children) visited₂

/-- JSON tree value built by `populate_json`: a node with name, path and
children array. -/
inductive JVal where
  | node (name : Str) (path : FsPath) (children : List JVal)

/-- The per-child loop of `populate_json`: build each child node, recurse to
fill its children array, and append it. -/
def populateChildren
    (walk : FsPath → List FsPath → Option (List JVal × List FsPath))
    (path : FsPath) :
    List Str → List FsPath → List JVal → Option (List JVal × List FsPath)
  | [], visited, acc => some (acc, visited)
  | c :: cs, visited, acc =>
    let childPath := joinPath path c
    match walk childPath visited with
    | none => none
    | some (kids, visited₂) =>
      populateChildren walk path cs visited₂ (acc ++ [JVal.node c childPath kids])

/-- Model of `DiskCache::populate_json`, fueled like `printTree`; returns the children
array to install on the current node (left empty on a visited hit or a missing
entry, as in the source). -/
def populateJson (entries : List (FsPath × DDirEntry)) :
    Nat → FsPath → List FsPath → Option (List JVal × List FsPath)
  | 0, _, _ => none
  | fuel + 1, path, visited =>
    if path ∈ visited then some ([], visited)
    else
      let visited₂ := path :: visited
      match alookup entries path with
      | none => some ([], visited₂)
      | some entry =>
        populateChildren (populateJson entries fuel) path
          (sortStrs entry.children) visited₂ []

/-- Number of cache entries whose path has not been visited yet: the
termination measure of the guarded walkers. -/
def unvisitedCount (entries : List (FsPath × DDirEntry))
    (visited : List FsPath) : Nat :=
  entries.countP (fun q => decide (q.1 ∉ visited))

/-- One filesystem child as `read_dir` reports it: name plus metadata flags. -/
structure FsNode where
  name : Str
  is_dir : Bool
  is_symlink : Bool
deriving DecidableEq

/-- The scanned filesystem: directory path to its children; an absent path
models `fs::read_dir` failing (permission denied, disappeared). -/
abbrev FsTree := List (FsPath × List FsNode)

/-- ASCII-lowercase one byte. -/
def lowerByte (b : Nat) : Nat := if 65 ≤ b ∧ b ≤ 90 then b + 32 else b

/-- Model of `str::eq_ignore_ascii_case`: bytewise ASCII-case-insensitive equality. -/
def eqIgnoreAsciiCase (a b : Str) : Bool := a.map lowerByte == b.map lowerByte

/-- Model of `should_skip`: some skip rule matches the name case-insensitively. -/
def shouldSkip (name : Str) (skipDirs : List Str) : Bool :=
  skipDirs.any fun rule => eqIgnoreAsciiCase name rule

/-- The control point of one `dfs_worker` thread between lock-protected
actions: at the top of the loop, holding a popped path before the claim
attempt, enumerating a claimed directory child by child, about to release the
claim, or exited. -/
inductive WStat where
  | atLoop
  | hasPath (p : FsPath)
  | enum (p : FsPath) (todo : List FsNode) (named : List Str)
  | release (p : FsPath)
  | done
deriving DecidableEq

/-- Shared state of the traversal: the work queue, the claim set
(`in_progress`), the writes buffered into the shared cache (in write order),
and the worker pool as a map from thread index to control point. -/
structure TravState where
  queue : List FsPath
  in_progress : List FsPath
  writes : List (FsPath × DDirEntry)
  workers : Nat → WStat
  numWorkers : Nat

/-- The `DirEntry` a worker builds for directory `p` (`Utc::now()` abstracted
as `now`; `size` is written as 0, `name` is the last path component). -/
def mkTravEntry (p : FsPath) (children : List Str) (now : Nat) : DDirEntry :=
  { path := p, name := (p.getLast?).getD [], modified := now, size := 0,
    children := children }

/-- Update one worker's control point. -/
def updWorker (f : Nat → WStat) (i : Nat) (w : WStat) : Nat → WStat :=
  fun j => if j = i then w else f j

/-- One atomic step of worker `i`, mirroring `dfs_worker`: pop one path (or
exit on an empty poll — the loop breaks on the first `None`); attempt the
claim (drop the path when it is already in the claim set); on success read
the directory (an unreadable directory skips straight to the release);
process one child per step (skip-rule filter; push non-symlink subdirectories
onto the queue under the queue lock); after the last child, sort the retained
names and write the entry into the shared cache; finally remove the claim and
return to the loop top. Workers beyond the pool size do nothing. -/
def travStep (fs : FsTree) (skipDirs : List Str) (now : Nat)
    (st : TravState) (i : Nat) : TravState :=
  if i < st.numWorkers then
    match st.workers i with
    | .done => st
    | .atLoop =>
      match st.queue with
      | [] => { st with workers := updWorker st.workers i .done }
      | p :: rest =>
        { st with queue := rest, workers := updWorker st.workers i (.hasPath p) }
    | .hasPath p =>
      if p ∈ st.in_progress then
        { st with workers := updWorker st.workers i .atLoop }
      else
        { st with
          in_progress := p :: st.in_progress,
          workers := updWorker st.workers i
            (match alookup fs p with
             | none => .release p
             | some kids => .enum p kids []) }
    | .enum p [] named =>
      { st with
        writes := st.writes ++ [(p, mkTravEntry p (sortStrs named) now)],
        workers := updWorker st.workers i (.release p) }
    | .enum p (k :: ks) named =>
      if shouldSkip k.name skipDirs then
        { st with workers := updWorker st.workers i (.enum p ks named) }
      else
        { st with
          queue := st.queue ++
            (if k.is_dir && !k.is_symlink then [p ++ [k.name]] else []),
          workers := updWorker st.workers i (.enum p ks (named ++ [k.name])) }
    | .release p =>
      { st with
        in_progress := st.in_progress.eraseP (fun q => q == p),
        workers := updWorker st.workers i .atLoop }
  else st

/-- Run the machine under a schedule of worker indices (one interleaving). -/
def travRun (fs : FsTree) (skipDirs : List Str) (now : Nat)
    (sched : List Nat) (st : TravState) : TravState :=
  sched.foldl (travStep fs skipDirs now) st

/-- Initial state: the queue holds the scan root, no claims, no writes, every
worker at the top of its loop. -/
def travInit (scanRoot : FsPath) (numThreads : Nat) : TravState :=
  { queue := [scanRoot], in_progress := [], writes := [],
    workers := fun _ => .atLoop, numWorkers := numThreads }

/-- The path a worker currently holds a claim on (between a successful claim
and the release), if any. -/
def claimedOf : WStat → Option FsPath
  | .enum p _ _ => some p
  | .release p => some p
  | _ => none

/-- The mutual-exclusion discipline of the claim set over a worker map and a
claim set: no two workers hold a claim on the same path, and every claimed
path is in the claim set. -/
def MutexInvParts (f : Nat → WStat) (ip : List FsPath) : Prop :=
  (∀ i j p, i ≠ j → claimedOf (f i) = some p → claimedOf (f j) ≠ some p) ∧
  (∀ i p, claimedOf (f i) = some p → p ∈ ip)

/-- The mutual-exclusion discipline of a traversal state. -/
def MutexInv (st : TravState) : Prop :=
  MutexInvParts st.workers st.in_progress

-- ===========================================================================
-- traverse_disk (freshness policy + scope selection)
-- ===========================================================================

/-- The fields of `DebugInfo` the claims speak to. -/
structure DebugInfoM where
  is_first_run : Bool
  scan_root : FsPath
  cache_used : Bool
  total_dirs : Nat
  threads_used : Nat
deriving DecidableEq

/-- Model of `traverse_disk`: the drive root (`"{drive}:\\"`) is modelled as the
single-component path `[drive]`. On a first run (empty cache) the scan root is
the drive root, which must exist; otherwise it is the current directory. The
cache's `root` and `last_scanned_root` are overwritten with the scan root
before the freshness check. Unless forced, a signed cache age under 3600
seconds with a non-empty cache short-circuits: no traversal runs and the
mutated cache is returned. Otherwise the worker machine runs under the given
schedule, its buffered writes are flushed into the entries map (as the final
`save` does), and `last_scan` is refreshed. The on-disk effect of the final
`cache.save` is modelled separately by `saveDisk`. -/
def traverseDisk (drive : Str) (cache : DiskCacheM) (force : Bool)
    (currentDir : FsPath) (now : Nat) (fs : FsTree) (skipDirs : List Str)
    (numThreads : Nat) (sched : List Nat) :
    Except Unit (DiskCacheM × DebugInfoM) :=
  let isFirstRun := cache.entries.isEmpty
  if isFirstRun ∧ alookup fs [drive] = none then .error ()
  else
    let scanRoot := if isFirstRun then [drive] else currentDir
    let cache₂ := { cache with root := scanRoot, last_scanned_root := scanRoot }
    if ¬force ∧ (now : Int) - (cache₂.last_scan : Int) < 3600 ∧
        ¬cache₂.entries.isEmpty then
      .ok (cache₂,
        { is_first_run := false, scan_root := cache₂.root, cache_used := true,
          total_dirs := cache₂.entries.length, threads_used := 0 })
    else
      let final := travRun fs skipDirs now sched (travInit scanRoot numThreads)
      let entries₂ :=
        final.writes.foldl (fun m q => aupdate m q.1 q.2) cache₂.entries
      let cache₃ :=
        { cache₂ with
          entries := entries₂, last_scan := now, pending_writes := [] }
      .ok (cache₃,
        { is_first_run := isFirstRun, scan_root := cache₃.root,
          cache_used := false, total_dirs := cache₃.entries.length,
          threads_used := numThreads })

-- ===========================================================================
-- Record classification for get_entry / get_all analysis
-- ===========================================================================

/-- What the mmap-read path of `get_entry` does for one indexed path: panic
(offset beyond the mapping), treat as absent (missing binding, no mapping, or
truncated record), fail to decode, or decode an entry. -/
inductive RecClass where
  | panicC
  | absentC
  | errC
  | okC (e : LDirEntry)
deriving DecidableEq

/-- Classify the record behind path `p` for an offsets map and a mapping. -/
def readRecord (offsets : List (FsPath × Nat)) (mm : Option (List Nat))
    (p : FsPath) : RecClass :=
  match alookup offsets p with
  | none => .absentC
  | some off =>
    match mm with
    | none => .absentC
    | some m =>
      if m.length < off then .panicC
      else
        let slice := m.drop off
        if slice.length < 4 then .absentC
        else
          let len := leVal (slice.take 4)
          if slice.length < 4 + len then .absentC
          else
            match decodeEntry ((slice.drop 4).take len) with
            | none => .errC
            | some (e, _) => .okC e

/-- A lazy cache whose index holds an offset (10) beyond the mapped data
file's length (5) — the shape left behind by a stale index over a truncated
data file. -/
def c3cache : LazyCache :=
  { index := { RkyvCacheIndex.new with offsets := [([[99]], 10)] },
    mmap := some (List.replicate 5 0), data_path := ([], []),
    entry_cache := [], entry_cache_size := 1000 }

/-- The C1 scenario: a root directory (`r`) with one subdirectory child. -/
def c1fs : FsTree :=
  [([[114]], [{ name := [97], is_dir := true, is_symlink := false }])]

/-- The C2 scenario: one worker, one existing empty directory `p`. -/
def c2fs : FsTree := [([[112]], [])]

/-- The C2 start state: the work queue contains the same path twice (K = 2). -/
def c2start : TravState :=
  { queue := [[[112]], [[112]]], in_progress := [], writes := [],
    workers := fun _ => .atLoop, numWorkers := 1 }

/-- A state with one worker holding a popped path that is already claimed. -/
def c2heldState : TravState :=
  { queue := [], in_progress := [[[112]]], writes := [],
    workers := fun _ => WStat.hasPath [[112]], numWorkers := 1 }

/-- A one-entry cache whose recorded roots are `a`, scanned 0s ago. -/
def c4entry : DDirEntry :=
  { path := [[97]], name := [97], modified := 0, size := 0, children := [] }

/-- The C4 scenario cache: non-empty, `root = last_scanned_root = a`. -/
def c4cache : DiskCacheM :=
  { entries := [([[97]], c4entry)], last_scan := 0, root := [[97]],
    last_scanned_root := [[97]], pending_writes := [], flush_threshold := 10000 }

/-- A small valid directory entry (`g`). -/
def c5entry : LDirEntry :=
  { path := [[103]], name := [103], modified := 0, content_hash := 0,
    children := [], symlink_target := none, is_hidden := false, is_dir := true }

/-- A data file holding one malformed record at offset 0 (a zero-length
payload that cannot decode) followed by one well-formed record at offset 4. -/
def c5data : List Nat :=
  encLE 4 0 ++ encLE 4 (encodeEntry c5entry).length ++ encodeEntry c5entry

/-- The C5 scenario: two indexed paths, one whose record decodes and one whose
record is malformed. -/
def c5cache : LazyCache :=
  { index := { RkyvCacheIndex.new with offsets := [([[103]], 4), ([[98]], 0)] },
    mmap := some c5data, data_path := ([], []), entry_cache := [],
    entry_cache_size := 1000 }

/-- The C5 scenario without the malformed record. -/
def c5okcache : LazyCache :=
  { index := { RkyvCacheIndex.new with offsets := [([[103]], 4)] },
    mmap := some c5data, data_path := ([], []), entry_cache := [],
    entry_cache_size := 1000 }

/-- A small valid entry for the C7 witness. -/
def c7entry : LDirEntry :=
  { path := [[107]], name := [107], modified := 7, content_hash := 9,
    children := [[120]], symlink_target := none, is_hidden := false,
    is_dir := true }

/-- Entry `1` for the C8 witness window. -/
def c8w1 : LDirEntry :=
  { path := [[49]], name := [49], modified := 1, content_hash := 0,
    children := [], symlink_target := none, is_hidden := false, is_dir := true }

/-- Entry `2` for the C8 witness window. -/
def c8w2 : LDirEntry :=
  { path := [[50]], name := [50], modified := 2, content_hash := 0,
    children := [], symlink_target := none, is_hidden := false, is_dir := true }

/-- Entry `3`, stored in the C8 witness data file. -/
def c8w3 : LDirEntry :=
  { path := [[51]], name := [51], modified := 3, content_hash := 0,
    children := [], symlink_target := none, is_hidden := false, is_dir := true }

/-- The C8 witness data file: one framed record for entry `3` at offset 0. -/
def c8data : List Nat := encLE 4 (encodeEntry c8w3).length ++ encodeEntry c8w3

/-- A full hot window of capacity 2 holding entries `1` (front) and `2`
(back), with entry `3` loadable from the mapping. -/
def c8cache : LazyCache :=
  { index := { RkyvCacheIndex.new with offsets := [([[51]], 0)] },
    mmap := some c8data, data_path := ([], []),
    entry_cache := [([[49]], c8w1), ([[50]], c8w2)], entry_cache_size := 2 }

/-- The window after loading `3` into the full `c8cache`: `2` evicted. -/
def c8after : LazyCache :=
  { c8cache with entry_cache := [([[51]], c8w3), ([[49]], c8w1)] }

/-- The window after a hit on `2`: promoted to the front. -/
def c8hit : LazyCache :=
  { c8cache with entry_cache := [([[50]], c8w2), ([[49]], c8w1)] }

/-- The window after promoting `2` and then loading `3`: `1` evicted, the
promoted `2` protected. -/
def c8prot : LazyCache :=
  { c8cache with entry_cache := [([[51]], c8w3), ([[50]], c8w2)] }


-- ===========================================================================
-- Theorems
-- ===========================================================================

theorem encLE_length (w n : Nat) : (encLE w n).length = w := by
  induction w generalizing n with
  | zero => rfl
  | succ w ih => simp [encLE, ih]

theorem decLE_encLE (w n : Nat) (r : List Nat) (h : n < 256 ^ w) :
    decLE w (encLE w n ++ r) = some (n, r) := by
  induction w generalizing n with
  | zero =>
    interval_cases n
    rfl
  | succ w ih =>
    have hdiv : n / 256 < 256 ^ w := by
      rw [Nat.div_lt_iff_lt_mul (by norm_num)]
      calc n < 256 ^ (w + 1) := h
        _ = 256 ^ w * 256 := by ring
    simp [encLE, decLE, ih (n / 256) hdiv, Nat.mod_add_div]

-- ===========================================================================
-- Byte-sequence and composite codecs
-- ===========================================================================

theorem decBytes_encBytes (s : List Nat) (r : List Nat)
    (h : s.length < 256 ^ 8) : decBytes (encBytes s ++ r) = some (s, r) := by
  simp only [encBytes, List.append_assoc, decBytes, decLE_encLE _ _ _ h]
  simp

theorem decCount_foldr (g : List Nat → Option (α × List Nat))
    (f : α → List Nat) (xs : List α) (r : List Nat)
    (hg : ∀ x ∈ xs, ∀ r₂, g (f x ++ r₂) = some (x, r₂)) :
    decCount g xs.length (xs.foldr (fun x acc => f x ++ acc) [] ++ r) =
      some (xs, r) := by
  induction xs with
  | nil => rfl
  | cons x xs ih =>
    have hx := hg x (by simp) (xs.foldr (fun y acc => f y ++ acc) [] ++ r)
    simp only [List.foldr_cons, List.length_cons, decCount, List.append_assoc,
      hx, ih fun y hy r₂ => hg y (by simp [hy]) r₂]

theorem decListN_encListN (g : List Nat → Option (α × List Nat))
    (f : α → List Nat) (xs : List α) (r : List Nat)
    (hlen : xs.length < 256 ^ 8)
    (hg : ∀ x ∈ xs, ∀ r₂, g (f x ++ r₂) = some (x, r₂)) :
    decListN g (encListN f xs ++ r) = some (xs, r) := by
  simp only [encListN, decListN, List.append_assoc, decLE_encLE _ _ _ hlen,
    decCount_foldr g f xs r hg]

theorem decOpt_encOpt (g : List Nat → Option (α × List Nat))
    (f : α → List Nat) (x : Option α) (r : List Nat)
    (hg : ∀ y ∈ x, ∀ r₂, g (f y ++ r₂) = some (y, r₂)) :
    decOpt g (encOpt f x ++ r) = some (x, r) := by
  cases x with
  | none => simp [encOpt, decOpt, decLE_encLE 4 0 r (by norm_num)]
  | some y =>
    simp [encOpt, decOpt, decLE_encLE 4 1 (f y ++ r) (by norm_num),
      hg y rfl r]

theorem decBool_encBool (b : Bool) (r : List Nat) :
    decBool (encBool b ++ r) = some (b, r) := by
  cases b <;> rfl

theorem decPath_encPath (p : FsPath) (r : List Nat) (h : validPath p = true) :
    decPath (encPath p ++ r) = some (p, r) := by
  simp only [validPath, Bool.and_eq_true, decide_eq_true_eq, List.all_eq_true,
    validStr] at h
  exact decListN_encListN decBytes encBytes p r h.1 fun c hc r₂ =>
    decBytes_encBytes c r₂ (by simpa using h.2 c hc)

-- ===========================================================================
-- Association lists, modelling HashMap lookups/inserts
-- ===========================================================================

theorem decodeEntry_encodeEntry (e : LDirEntry) (r : List Nat)
    (h : validEntry e = true) : decodeEntry (encodeEntry e ++ r) = some (e, r) := by
  simp only [validEntry, Bool.and_eq_true, decide_eq_true_eq,
    List.all_eq_true] at h
  obtain ⟨⟨⟨⟨⟨⟨⟨hp, hn⟩, hm⟩, hh⟩, hcl⟩, hc⟩, hs⟩, -⟩ := h
  have hchild : ∀ c ∈ e.children, ∀ r₂, decBytes (encBytes c ++ r₂) = some (c, r₂) :=
    fun c hc₂ r₂ => decBytes_encBytes c r₂ (by simpa [validStr] using hc c hc₂)
  have hsym : ∀ y ∈ e.symlink_target, ∀ r₂,
      decBytes (encBytes y ++ r₂) = some (y, r₂) := by
    intro y hy r₂
    refine decBytes_encBytes y r₂ ?_
    rw [Option.mem_def.mp hy] at hs
    simpa using hs
  simp only [encodeEntry, decodeEntry, List.append_assoc,
    decPath_encPath e.path _ hp,
    decBytes_encBytes e.name _ (by simpa [validStr] using hn),
    decLE_encLE 8 e.modified _ hm, decLE_encLE 8 e.content_hash _ hh,
    decListN_encListN decBytes encBytes e.children _ hcl hchild,
    decOpt_encOpt decBytes encBytes e.symlink_target _ hsym,
    decBool_encBool e.is_hidden, decBool_encBool e.is_dir]

-- ===========================================================================
-- Cache index (RkyvCacheIndex)
-- ===========================================================================

theorem decOffBinding_enc (x : FsPath × Nat) (r : List Nat)
    (hp : validPath x.1 = true) (ho : x.2 < 256 ^ 8) :
    decOffBinding (encOffBinding x ++ r) = some (x, r) := by
  simp [encOffBinding, decOffBinding, List.append_assoc,
    decPath_encPath x.1 _ hp, decLE_encLE 8 x.2 r ho]

theorem decStatBinding_enc (x : Str × Nat) (r : List Nat)
    (hs : validStr x.1 = true) (ho : x.2 < 256 ^ 8) :
    decStatBinding (encStatBinding x ++ r) = some (x, r) := by
  simp [encStatBinding, decStatBinding, List.append_assoc,
    decBytes_encBytes x.1 _ (by simpa [validStr] using hs),
    decLE_encLE 8 x.2 r ho]

theorem decodeIndex_encodeIndex (i : RkyvCacheIndex) (r : List Nat)
    (h : validIndex i = true) : decodeIndex (encodeIndex i ++ r) = some (i, r) := by
  simp only [validIndex, Bool.and_eq_true, decide_eq_true_eq,
    List.all_eq_true] at h
  obtain ⟨⟨⟨⟨⟨⟨⟨hol, hob⟩, hls⟩, hr⟩, hlr⟩, hsl⟩, hsb⟩, hu⟩ := h
  simp only [encodeIndex, decodeIndex, List.append_assoc,
    decListN_encListN decOffBinding encOffBinding i.offsets _ hol
      (fun x hx r₂ => decOffBinding_enc x r₂ (hob x hx).1 (hob x hx).2),
    decLE_encLE 8 i.last_scan _ hls, decPath_encPath i.root _ hr,
    decPath_encPath i.last_scanned_root _ hlr,
    decListN_encListN decStatBinding encStatBinding i.skip_stats _ hsl
      (fun x hx r₂ => decStatBinding_enc x r₂ (hsb x hx).1 (hsb x hx).2),
    decLE_encLE 8 i.usn_state _ hu]

-- ===========================================================================
-- LazyCache (ptree-cache/src/cache_lazy.rs)
-- ===========================================================================

theorem decDEntry_encDEntry (e : DDirEntry) (r : List Nat)
    (h : validDEntry e = true) : decDEntry (encDEntry e ++ r) = some (e, r) := by
  simp only [validDEntry, Bool.and_eq_true, decide_eq_true_eq,
    List.all_eq_true] at h
  obtain ⟨⟨⟨⟨⟨hp, hn⟩, hm⟩, hsz⟩, hcl⟩, hc⟩ := h
  simp only [encDEntry, decDEntry, List.append_assoc,
    decPath_encPath e.path _ hp,
    decBytes_encBytes e.name _ (by simpa [validStr] using hn),
    decLE_encLE 8 e.modified _ hm, decLE_encLE 8 e.size _ hsz,
    decListN_encListN decBytes encBytes e.children _ hcl
      (fun c hc₂ r₂ => decBytes_encBytes c r₂ (by simpa [validStr] using hc c hc₂))]

theorem decodeDiskCache_encodeDiskCache (c : DiskCacheM)
    (h : validDiskCache c = true) :
    decodeDiskCache (encodeDiskCache c) =
      some { c with pending_writes := [], flush_threshold := 0 } := by
  simp only [validDiskCache, Bool.and_eq_true, decide_eq_true_eq,
    List.all_eq_true] at h
  obtain ⟨⟨⟨⟨hel, heb⟩, hls⟩, hr⟩, hlr⟩ := h
  have hbind : ∀ x ∈ c.entries, ∀ r₂,
      decEntryBinding (encEntryBinding x ++ r₂) = some (x, r₂) := by
    intro x hx r₂
    simp only [encEntryBinding, decEntryBinding, List.append_assoc,
      decPath_encPath x.1 _ (heb x hx).1,
      decDEntry_encDEntry x.2 _ (heb x hx).2]
  have h₁ := decListN_encListN decEntryBinding encEntryBinding c.entries
    (encLE 8 c.last_scan ++ (encPath c.root ++ encPath c.last_scanned_root))
    hel hbind
  simp only [encodeDiskCache, decodeDiskCache, List.append_assoc, h₁,
    decLE_encLE 8 c.last_scan _ hls, decPath_encPath c.root _ hr]
  have hlast : decPath (encPath c.last_scanned_root) =
      some (c.last_scanned_root, []) := by
    simpa using decPath_encPath c.last_scanned_root [] hlr
  simp [hlast]

theorem alookup_mem [DecidableEq κ] {l : List (κ × α)} {k : κ} {v : α}
    (h : alookup l k = some v) : (k, v) ∈ l := by
  induction l with
  | nil => cases h
  | cons q rest ih =>
    obtain ⟨k₂, v₂⟩ := q
    by_cases hq : k₂ = k
    · subst hq
      simp [alookup] at h
      subst h
      exact List.mem_cons_self _ _
    · simp only [alookup, if_neg hq] at h
      exact List.mem_cons_of_mem _ (ih h)

theorem unvisited_mono (entries : List (FsPath × DDirEntry))
    {v v₂ : List FsPath} (h : ∀ x ∈ v, x ∈ v₂) :
    unvisitedCount entries v₂ ≤ unvisitedCount entries v := by
  induction entries with
  | nil => exact le_refl _
  | cons q rest ih =>
    simp only [unvisitedCount, List.countP_cons] at *
    have hq : (if decide (q.1 ∉ v₂) = true then 1 else 0) ≤
        (if decide (q.1 ∉ v) = true then 1 else 0) := by
      by_cases hin : q.1 ∈ v₂
      · simp [hin]
      · have hv : q.1 ∉ v := fun hc => hin (h _ hc)
        simp [hv, hin]
    omega

theorem unvisited_insert_lt (path : FsPath) (visited : List FsPath)
    (e : DDirEntry) (hnv : path ∉ visited) :
    ∀ entries : List (FsPath × DDirEntry), (path, e) ∈ entries →
      unvisitedCount entries (path :: visited) < unvisitedCount entries visited := by
  intro entries
  induction entries with
  | nil => intro hmem; cases hmem
  | cons q rest ih =>
    intro hmem
    simp only [unvisitedCount, List.countP_cons] at *
    have hif : (if decide (q.1 ∉ path :: visited) = true then 1 else 0) ≤
        (if decide (q.1 ∉ visited) = true then 1 else 0) := by
      by_cases hv : q.1 ∈ path :: visited
      · simp [hv]
      · have hv₂ : q.1 ∉ visited := fun hc => hv (List.mem_cons_of_mem _ hc)
        simp [hv, hv₂]
    rcases List.mem_cons.mp hmem with heq | htail
    · have hq : q.1 = path := by rw [← heq]
      have h1 : (if decide (q.1 ∉ path :: visited) = true then 1 else 0) = 0 := by
        simp [hq]
      have h2 : (if decide (q.1 ∉ visited) = true then 1 else 0) = 1 := by
        simp [hq, hnv]
      have hle : unvisitedCount rest (path :: visited) ≤ unvisitedCount rest visited :=
        unvisited_mono rest fun x hx => List.mem_cons_of_mem _ hx
      simp only [unvisitedCount] at hle
      omega
    · have hlt := ih htail
      omega

theorem printChildren_mono (mkLine : Str → Bool → Str → Str)
    (walk : FsPath → List FsPath → Str → Bool → Option (Str × List FsPath))
    (hwalk : ∀ p v pfx b out v₂, walk p v pfx b = some (out, v₂) →
      ∀ x ∈ v, x ∈ v₂) :
    ∀ (cs : List Str) (path : FsPath) (pfx : Str) (isLast : Bool)
      (visited : List FsPath) (out : Str) (v₂ : List FsPath),
      printChildren mkLine walk path pfx isLast cs visited = some (out, v₂) →
      ∀ x ∈ visited, x ∈ v₂ := by
  intro cs
  induction cs with
  | nil =>
    intro path pfx isLast visited out v₂ h x hx
    simp only [printChildren, Option.some.injEq, Prod.mk.injEq] at h
    rw [← h.2]
    exact hx
  | cons c cs ih =>
    intro path pfx isLast visited out v₂ h x hx
    simp only [printChildren] at h
    split at h
    · cases h
    · rename_i res o v₃ hw
      split at h
      · cases h
      · rename_i res₂ o₂ v₄ hrec
        simp only [Option.some.injEq, Prod.mk.injEq] at h
        rw [← h.2]
        exact ih path pfx isLast v₃ o₂ v₄ hrec x (hwalk _ _ _ _ _ _ hw x hx)

theorem printTree_mono (entries : List (FsPath × DDirEntry)) :
    ∀ (fuel : Nat) (path : FsPath) (visited : List FsPath) (pfx : Str)
      (b : Bool) (out : Str) (v₂ : List FsPath),
      printTree entries fuel path visited pfx b = some (out, v₂) →
      ∀ x ∈ visited, x ∈ v₂ := by
  intro fuel
  induction fuel with
  | zero => intro path visited pfx b out v₂ h; cases h
  | succ fuel ih =>
    intro path visited pfx b out v₂ h x hx
    simp only [printTree] at h
    by_cases hv : path ∈ visited
    · simp only [if_pos hv, Option.some.injEq, Prod.mk.injEq] at h
      rw [← h.2]
      exact hx
    · simp only [if_neg hv] at h
      split at h
      · simp only [Option.some.injEq, Prod.mk.injEq] at h
        rw [← h.2]
        exact List.mem_cons_of_mem _ hx
      · rename_i entry hl
        exact printChildren_mono mkAsciiLine (printTree entries fuel)
          (fun p v pfx₂ b₂ out₂ v₃ hw => ih p v pfx₂ b₂ out₂ v₃ hw) _ _ _ _ _
          _ _ h x (List.mem_cons_of_mem _ hx)

theorem printChildren_isSome (mkLine : Str → Bool → Str → Str)
    (walk : FsPath → List FsPath → Str → Bool → Option (Str × List FsPath))
    (entries : List (FsPath × DDirEntry)) (F : Nat)
    (hmono : ∀ p v pfx b out v₂, walk p v pfx b = some (out, v₂) →
      ∀ x ∈ v, x ∈ v₂)
    (hsuf : ∀ p v pfx b, unvisitedCount entries v < F → (walk p v pfx b).isSome) :
    ∀ (cs : List Str) (path : FsPath) (pfx : Str) (isLast : Bool)
      (visited : List FsPath), unvisitedCount entries visited < F →
      (printChildren mkLine walk path pfx isLast cs visited).isSome := by
  intro cs
  induction cs with
  | nil => intro path pfx isLast visited h; simp [printChildren]
  | cons c cs ih =>
    intro path pfx isLast visited h
    have hw := hsuf (joinPath path c) visited
      (pfx ++ if isLast then glyphSpace else glyphPipe) cs.isEmpty h
    simp only [printChildren]
    split
    · rename_i hnone
      rw [hnone] at hw
      cases hw
    · rename_i res o v₃ hsome
      have hsub := hmono _ _ _ _ _ _ hsome
      have hle := unvisited_mono entries hsub
      have hrec := ih path pfx isLast v₃ (lt_of_le_of_lt hle h)
      split
      · rename_i hnone₂
        rw [hnone₂] at hrec
        cases hrec
      · simp

theorem printTree_isSome (entries : List (FsPath × DDirEntry)) :
    ∀ (fuel : Nat) (path : FsPath) (visited : List FsPath) (pfx : Str)
      (b : Bool), unvisitedCount entries visited < fuel →
      (printTree entries fuel path visited pfx b).isSome := by
  intro fuel
  induction fuel with
  | zero => intro path visited pfx b h; cases h
  | succ fuel ih =>
    intro path visited pfx b h
    simp only [printTree]
    by_cases hv : path ∈ visited
    · simp [hv]
    · simp only [if_neg hv]
      split
    
      · simp
      · rename_i entry hl
        have hlt : unvisitedCount entries (path :: visited) < fuel := by
          have := unvisited_insert_lt path visited entry hv entries (alookup_mem hl)
          omega
        exact printChildren_isSome mkAsciiLine (printTree entries fuel)
          entries fuel
          (fun p v pfx₂ b₂ out₂ v₃ hw => printTree_mono entries fuel p v
            pfx₂ b₂ out₂ v₃ hw)
          (fun p v pfx₂ b₂ hlt₂ => ih p v pfx₂ b₂ hlt₂)
          (sortStrs entry.children) path pfx b (path :: visited) hlt

theorem printColoredTree_mono (entries : List (FsPath × DDirEntry)) :
    ∀ (fuel : Nat) (path : FsPath) (visited : List FsPath) (pfx : Str)
      (b : Bool) (out : Str) (v₂ : List FsPath),
      printColoredTree entries fuel path visited pfx b = some (out, v₂) →
      ∀ x ∈ visited, x ∈ v₂ := by
  intro fuel
  induction fuel with
  | zero => intro path visited pfx b out v₂ h; cases h
  | succ fuel ih =>
    intro path visited pfx b out v₂ h x hx
    simp only [printColoredTree] at h
    by_cases hv : path ∈ visited
    · simp only [if_pos hv, Option.some.injEq, Prod.mk.injEq] at h
      rw [← h.2]
      exact hx
    · simp only [if_neg hv] at h
      split at h
      · simp only [Option.some.injEq, Prod.mk.injEq] at h
        rw [← h.2]
        exact List.mem_cons_of_mem _ hx
      · rename_i entry hl
        exact printChildren_mono mkColoredLine (printColoredTree entries fuel)
          (fun p v pfx₂ b₂ out₂ v₃ hw => ih p v pfx₂ b₂ out₂ v₃ hw) _ _ _ _ _
          _ _ h x (List.mem_cons_of_mem _ hx)

theorem printColoredTree_isSome (entries : List (FsPath × DDirEntry)) :
    ∀ (fuel : Nat) (path : FsPath) (visited : List FsPath) (pfx : Str)
      (b : Bool), unvisitedCount entries visited < fuel →
      (printColoredTree entries fuel path visited pfx b).isSome := by
  intro fuel
  induction fuel with
  | zero => intro path visited pfx b h; cases h
  | succ fuel ih =>
    intro path visited pfx b h
    simp only [printColoredTree]
    by_cases hv : path ∈ visited
    · simp [hv]
    · simp only [if_neg hv]
      split
      · simp
      · rename_i entry hl
        have hlt : unvisitedCount entries (path :: visited) < fuel := by
          have := unvisited_insert_lt path visited entry hv entries (alookup_mem hl)
          omega
        exact printChildren_isSome mkColoredLine (printColoredTree entries fuel)
          entries fuel
          (fun p v pfx₂ b₂ out₂ v₃ hw => printColoredTree_mono entries fuel p v
            pfx₂ b₂ out₂ v₃ hw)
          (fun p v pfx₂ b₂ hlt₂ => ih p v pfx₂ b₂ hlt₂)
          (sortStrs entry.children) path pfx b (path :: visited) hlt

theorem populateChildren_mono
    (walk : FsPath → List FsPath → Option (List JVal × List FsPath))
    (hwalk : ∀ p v out v₂, walk p v = some (out, v₂) → ∀ x ∈ v, x ∈ v₂) :
    ∀ (cs : List Str) (path : FsPath) (visited : List FsPath)
      (acc out : List JVal) (v₂ : List FsPath),
      populateChildren walk path cs visited acc = some (out, v₂) →
      ∀ x ∈ visited, x ∈ v₂ := by
  intro cs
  induction cs with
  | nil =>
    intro path visited acc out v₂ h x hx
    simp only [populateChildren, Option.some.injEq, Prod.mk.injEq] at h
    rw [← h.2]
    exact hx
  | cons c cs ih =>
    intro path visited acc out v₂ h x hx
    simp only [populateChildren] at h
    split at h
    · cases h
    · rename_i res kids v₃ hw
      exact ih path v₃ _ out v₂ h x (hwalk _ _ _ _ hw x hx)

theorem populateJson_mono (entries : List (FsPath × DDirEntry)) :
    ∀ (fuel : Nat) (path : FsPath) (visited : List FsPath)
      (out : List JVal) (v₂ : List FsPath),
      populateJson entries fuel path visited = some (out, v₂) →
      ∀ x ∈ visited, x ∈ v₂ := by
  intro fuel
  induction fuel with
  | zero => intro path visited out v₂ h; cases h
  | succ fuel ih =>
    intro path visited out v₂ h x hx
    simp only [populateJson] at h
    by_cases hv : path ∈ visited
    · simp only [if_pos hv, Option.some.injEq, Prod.mk.injEq] at h
      rw [← h.2]
      exact hx
    · simp only [if_neg hv] at h
      split at h
      · simp only [Option.some.injEq, Prod.mk.injEq] at h
        rw [← h.2]
        exact List.mem_cons_of_mem _ hx
      · rename_i entry hl
        exact populateChildren_mono (populateJson entries fuel)
          (fun p v out₂ v₃ hw => ih p v out₂ v₃ hw) _ _ _ _ _ _ h x
          (List.mem_cons_of_mem _ hx)

theorem populateChildren_isSome
    (walk : FsPath → List FsPath → Option (List JVal × List FsPath))
    (entries : List (FsPath × DDirEntry)) (F : Nat)
    (hmono : ∀ p v out v₂, walk p v = some (out, v₂) → ∀ x ∈ v, x ∈ v₂)
    (hsuf : ∀ p v, unvisitedCount entries v < F → (walk p v).isSome) :
    ∀ (cs : List Str) (path : FsPath) (visited : List FsPath)
      (acc : List JVal), unvisitedCount entries visited < F →
      (populateChildren walk path cs visited acc).isSome := by
  intro cs
  induction cs with
  | nil => intro path visited acc h; simp [populateChildren]
  | cons c cs ih =>
    intro path visited acc h
    have hw := hsuf (joinPath path c) visited h
    simp only [populateChildren]
    split
    · rename_i hnone
      rw [hnone] at hw
      cases hw
    · rename_i res kids v₃ hsome
      have hsub := hmono _ _ _ _ hsome
      have hle := unvisited_mono entries hsub
      exact ih path v₃ _ (lt_of_le_of_lt hle h)

theorem populateJson_isSome (entries : List (FsPath × DDirEntry)) :
    ∀ (fuel : Nat) (path : FsPath) (visited : List FsPath),
      unvisitedCount entries visited < fuel →
      (populateJson entries fuel path visited).isSome := by
  intro fuel
  induction fuel with
  | zero => intro path visited h; cases h
  | succ fuel ih =>
    intro path visited h
    simp only [populateJson]
    by_cases hv : path ∈ visited
    · simp [hv]
    · simp only [if_neg hv]
      split
      · simp
      · rename_i entry hl
        have hlt : unvisitedCount entries (path :: visited) < fuel := by
          have := unvisited_insert_lt path visited entry hv entries (alookup_mem hl)
          omega
        exact populateChildren_isSome (populateJson entries fuel) entries fuel
          (fun p v out₂ v₃ hw => populateJson_mono entries fuel p v out₂ v₃ hw)
          (fun p v hlt₂ => ih p v hlt₂)
          (sortStrs entry.children) path (path :: visited) [] hlt

-- ===========================================================================
-- Traversal engine (src/traversal.rs)
-- ===========================================================================

theorem alookup_eq_none [DecidableEq κ] {l : List (κ × α)} {k : κ}
    (h : k ∉ l.map (·.1)) : alookup l k = none := by
  induction l with
  | nil => rfl
  | cons q rest ih =>
    have hne : q.1 ≠ k := fun hc => h (by simp [hc])
    obtain ⟨k₂, v₂⟩ := q
    simp only [alookup, if_neg hne]
    exact ih fun hc => h (List.mem_cons_of_mem _ hc)

/-- On a hot-window miss, `get_entry` behaves exactly as the record class
dictates: panic, `Ok(None)`, `Err`, or a window insert with the LRU trim. -/
theorem getEntry_miss (c : LazyCache) (p : FsPath)
    (hmiss : alookup c.entry_cache p = none) :
    getEntry c p =
      match readRecord c.index.offsets c.mmap p with
      | .panicC => .panicked
      | .absentC => .returned (.ok none, c)
      | .errC => .returned (.error (), c)
      | .okC e =>
        .returned (.ok (some e),
          { c with entry_cache :=
              if c.entry_cache_size < ((p, e) :: c.entry_cache).length then
                ((p, e) :: c.entry_cache).dropLast
              else (p, e) :: c.entry_cache }) := by
  simp only [getEntry, hmiss, readRecord]
  cases halo : alookup c.index.offsets p with
  | none => rfl
  | some off =>
    cases hmm : c.mmap with
    | none => rfl
    | some m =>
      by_cases h₁ : m.length < off
      · simp only [if_pos h₁]
      · simp only [if_neg h₁]
        by_cases h₂ : (m.drop off).length < 4
        · simp only [if_pos h₂]
        · simp only [if_neg h₂]
          by_cases h₃ : (m.drop off).length < 4 + leVal ((m.drop off).take 4)
          · simp only [if_pos h₃]
          · simp only [if_neg h₃]
            cases hdec : decodeEntry (((m.drop off).drop 4).take
                (leVal ((m.drop off).take 4))) with
            | none => rfl
            | some res => cases res; rfl

theorem getAllGo_ok (idx : RkyvCacheIndex) (mm : Option (List Nat)) :
    ∀ (ps : List FsPath) (c : LazyCache) (acc : List (FsPath × LDirEntry)),
      c.index = idx → c.mmap = mm →
      (∀ p ∈ ps, p ∉ c.entry_cache.map (·.1)) →
      ps.Nodup →
      (∀ p ∈ ps, readRecord idx.offsets mm p ≠ .panicC ∧
        readRecord idx.offsets mm p ≠ .errC) →
      ∃ c₂, getAllGo ps c acc =
        .returned (.ok (ps.foldl (fun a p =>
          match readRecord idx.offsets mm p with
          | .okC e => aupdate a p e
          | _ => a) acc, c₂)) := by
  intro ps
  induction ps with
  | nil =>
    intro c acc hidx hmm hnk hnd hok
    exact ⟨c, rfl⟩
  | cons p ps ih =>
    intro c acc hidx hmm hnk hnd hok
    obtain ⟨hp, hnd₂⟩ := List.nodup_cons.mp hnd
    have hmiss : alookup c.entry_cache p = none :=
      alookup_eq_none (hnk p (List.mem_cons_self _ _))
    have hge := getEntry_miss c p hmiss
    rw [hidx, hmm] at hge
    cases hclass : readRecord idx.offsets mm p with
    | panicC => exact absurd hclass (hok p (List.mem_cons_self _ _)).1
    | errC => exact absurd hclass (hok p (List.mem_cons_self _ _)).2
    | absentC =>
      rw [hclass] at hge
      simp only [getAllGo, hge, List.foldl_cons, hclass]
      exact ih c acc hidx hmm (fun q hq => hnk q (List.mem_cons_of_mem _ hq))
        hnd₂ fun q hq => hok q (List.mem_cons_of_mem _ hq)
    | okC e =>
      rw [hclass] at hge
      simp only [getAllGo, hge, List.foldl_cons, hclass]
      refine ih _ (aupdate acc p e) rfl rfl ?_ hnd₂
        (fun q hq => hok q (List.mem_cons_of_mem _ hq))
      intro q hq hqmem
      by_cases hcap : c.entry_cache_size < ((p, e) :: c.entry_cache).length
      · simp only [if_pos hcap] at hqmem
        have hsub : (((p, e) :: c.entry_cache).dropLast).map (·.1) ⊆
            ((p, e) :: c.entry_cache).map (·.1) :=
          (List.dropLast_sublist _).map _ |>.subset
        have := hsub hqmem
        simp only [List.map_cons, List.mem_cons] at this
        rcases this with heq | hmem₂
        · exact hp (heq ▸ hq)
        · exact hnk q (List.mem_cons_of_mem _ hq) hmem₂
      · simp only [if_neg hcap, List.map_cons, List.mem_cons] at hqmem
        rcases hqmem with heq | hmem₂
        · exact hp (heq ▸ hq)
        · exact hnk q (List.mem_cons_of_mem _ hq) hmem₂

theorem getAllGo_err (idx : RkyvCacheIndex) (mm : Option (List Nat)) :
    ∀ (ps : List FsPath) (c : LazyCache) (acc : List (FsPath × LDirEntry)),
      c.index = idx → c.mmap = mm →
      (∀ p ∈ ps, p ∉ c.entry_cache.map (·.1)) →
      ps.Nodup →
      (∀ p ∈ ps, readRecord idx.offsets mm p ≠ .panicC) →
      (∃ p ∈ ps, readRecord idx.offsets mm p = .errC) →
      getAllGo ps c acc = .returned (.error ()) := by
  intro ps
  induction ps with
  | nil =>
    intro c acc hidx hmm hnk hnd hnp hex
    obtain ⟨p, hp, -⟩ := hex
    cases hp
  | cons p ps ih =>
    intro c acc hidx hmm hnk hnd hnp hex
    obtain ⟨hpnd, hnd₂⟩ := List.nodup_cons.mp hnd
    have hmiss : alookup c.entry_cache p = none :=
      alookup_eq_none (hnk p (List.mem_cons_self _ _))
    have hge := getEntry_miss c p hmiss
    rw [hidx, hmm] at hge
    cases hclass : readRecord idx.offsets mm p with
    | panicC => exact absurd hclass (hnp p (List.mem_cons_self _ _))
    | errC =>
      rw [hclass] at hge
      simp only [getAllGo, hge]
    | absentC =>
      rw [hclass] at hge
      simp only [getAllGo, hge]
      obtain ⟨q, hq, hqe⟩ := hex
      rcases List.mem_cons.mp hq with heq | hq₂
      · rw [heq] at hqe
        rw [hqe] at hclass
        cases hclass
      · exact ih c acc hidx hmm (fun r hr => hnk r (List.mem_cons_of_mem _ hr))
          hnd₂ (fun r hr => hnp r (List.mem_cons_of_mem _ hr)) ⟨q, hq₂, hqe⟩
    | okC e =>
      rw [hclass] at hge
      simp only [getAllGo, hge]
      obtain ⟨q, hq, hqe⟩ := hex
      rcases List.mem_cons.mp hq with heq | hq₂
      · rw [heq] at hqe
        rw [hqe] at hclass
        cases hclass
      · refine ih _ (aupdate acc p e) rfl rfl ?_ hnd₂
          (fun r hr => hnp r (List.mem_cons_of_mem _ hr)) ⟨q, hq₂, hqe⟩
        intro r hr hrmem
        by_cases hcap : c.entry_cache_size < ((p, e) :: c.entry_cache).length
        · simp only [if_pos hcap] at hrmem
          have hsub : (((p, e) :: c.entry_cache).dropLast).map (·.1) ⊆
              ((p, e) :: c.entry_cache).map (·.1) :=
            (List.dropLast_sublist _).map _ |>.subset
          have := hsub hrmem
          simp only [List.map_cons, List.mem_cons] at this
          rcases this with heq₂ | hmem₂
          · exact hpnd (heq₂ ▸ hr)
          · exact hnk r (List.mem_cons_of_mem _ hr) hmem₂
        · simp only [if_neg hcap, List.map_cons, List.mem_cons] at hrmem
          rcases hrmem with heq₂ | hmem₂
          · exact hpnd (heq₂ ▸ hr)
          · exact hnk r (List.mem_cons_of_mem _ hr) hmem₂

theorem updWorker_eval (f : Nat → WStat) (i j : Nat) (w : WStat) :
    updWorker f i w j = if j = i then w else f j := rfl

theorem parts_upd_none {f : Nat → WStat} {ip : List FsPath} (i : Nat)
    {w : WStat} (hw : claimedOf w = none) (h : MutexInvParts f ip) :
    MutexInvParts (updWorker f i w) ip := by
  obtain ⟨ha, hb⟩ := h
  constructor
  · intro a b p hab hca
    rw [updWorker_eval] at hca ⊢
    by_cases haeq : a = i
    · rw [if_pos haeq, hw] at hca
      cases hca
    · rw [if_neg haeq] at hca
      by_cases hbeq : b = i
      · rw [if_pos hbeq, hw]
        simp
      · rw [if_neg hbeq]
        exact ha a b p hab hca
  · intro a p hca
    rw [updWorker_eval] at hca
    by_cases haeq : a = i
    · rw [if_pos haeq, hw] at hca
      cases hca
    · rw [if_neg haeq] at hca
      exact hb a p hca

theorem parts_upd_keep {f : Nat → WStat} {ip : List FsPath} (i : Nat)
    {w : WStat} (hw : claimedOf w = claimedOf (f i)) (h : MutexInvParts f ip) :
    MutexInvParts (updWorker f i w) ip := by
  obtain ⟨ha, hb⟩ := h
  constructor
  · intro a b p hab hca
    rw [updWorker_eval] at hca ⊢
    by_cases haeq : a = i
    · rw [if_pos haeq, hw, ← haeq] at hca
      by_cases hbeq : b = i
      · exact absurd (haeq.trans hbeq.symm) hab
      · rw [if_neg hbeq]
        exact ha a b p hab hca
    · rw [if_neg haeq] at hca
      by_cases hbeq : b = i
      · rw [if_pos hbeq, hw, ← hbeq]
        exact ha a b p hab hca
      · rw [if_neg hbeq]
        exact ha a b p hab hca
  · intro a p hca
    rw [updWorker_eval] at hca
    by_cases haeq : a = i
    · rw [if_pos haeq, hw, ← haeq] at hca
      exact hb a p hca
    · rw [if_neg haeq] at hca
      exact hb a p hca

theorem parts_claim {f : Nat → WStat} {ip : List FsPath} (i : Nat)
    {w : WStat} {p : FsPath} (hw : claimedOf w = some p) (hp : p ∉ ip)
    (h : MutexInvParts f ip) :
    MutexInvParts (updWorker f i w) (p :: ip) := by
  obtain ⟨ha, hb⟩ := h
  constructor
  · intro a b q hab hca
    rw [updWorker_eval] at hca ⊢
    by_cases haeq : a = i
    · rw [if_pos haeq, hw] at hca
      cases hca
      by_cases hbeq : b = i
      · exact absurd (haeq.trans hbeq.symm) hab
      · rw [if_neg hbeq]
        intro hcb
        exact hp (hb b p hcb)
    · rw [if_neg haeq] at hca
      by_cases hbeq : b = i
      · rw [if_pos hbeq, hw]
        intro hcb
        cases hcb
        exact hp (hb a p hca)
      · rw [if_neg hbeq]
        exact ha a b q hab hca
  · intro a q hca
    rw [updWorker_eval] at hca
    by_cases haeq : a = i
    · rw [if_pos haeq, hw] at hca
      cases hca
      exact List.mem_cons_self _ _
    · rw [if_neg haeq] at hca
      exact List.mem_cons_of_mem _ (hb a q hca)

theorem mem_eraseP_of_not_pred {l : List FsPath} {q p : FsPath}
    (hmem : q ∈ l) (hne : q ≠ p) : q ∈ l.eraseP (fun r => r == p) := by
  induction l with
  | nil => cases hmem
  | cons x rest ih =>
    by_cases hx : x = p
    · have hxp : (x == p) = true := by simp [hx]
      simp only [List.eraseP_cons, hxp, cond_true]
      rcases List.mem_cons.mp hmem with heq | hmem₂
      · exact absurd (heq.trans hx) hne
      · exact hmem₂
    · have hxp : (x == p) = false := by simp [hx]
      simp only [List.eraseP_cons, hxp, cond_false]
      rcases List.mem_cons.mp hmem with heq | hmem₂
      · exact heq ▸ List.mem_cons_self _ _
      · exact List.mem_cons_of_mem _ (ih hmem₂)

theorem parts_release {f : Nat → WStat} {ip : List FsPath} (i : Nat)
    {p : FsPath} (hfi : claimedOf (f i) = some p) (h : MutexInvParts f ip) :
    MutexInvParts (updWorker f i .atLoop) (ip.eraseP (fun q => q == p)) := by
  obtain ⟨ha, hb⟩ := h
  constructor
  · intro a b q hab hca
    rw [updWorker_eval] at hca ⊢
    by_cases haeq : a = i
    · rw [if_pos haeq] at hca
      cases hca
    · rw [if_neg haeq] at hca
      by_cases hbeq : b = i
      · rw [if_pos hbeq]
        simp [claimedOf]
      · rw [if_neg hbeq]
        exact ha a b q hab hca
  · intro a q hca
    rw [updWorker_eval] at hca
    by_cases haeq : a = i
    · rw [if_pos haeq] at hca
      cases hca
    · rw [if_neg haeq] at hca
      have hqp : q ≠ p := by
        intro hqp
        exact ha a i q haeq hca (by rw [hfi, hqp])
      exact mem_eraseP_of_not_pred (hb a q hca) hqp

theorem travStep_mutex (fs : FsTree) (skipDirs : List Str) (now : Nat)
    (st : TravState) (i : Nat) (h : MutexInv st) :
    MutexInv (travStep fs skipDirs now st i) := by
  unfold travStep
  by_cases hlt : i < st.numWorkers
  · simp only [if_pos hlt]
    split
    · exact h
    · split
      · exact parts_upd_none i rfl h
      · exact parts_upd_none i rfl h
    · split
      · exact parts_upd_none i rfl h
      · rename_i p hw hp
        exact parts_claim i
          (by cases halo : alookup fs p <;> rfl) hp h
    · rename_i p named hw
      exact parts_upd_keep i (by rw [hw]; rfl) h
    · rename_i p k ks named hw
      split
      · exact parts_upd_keep i (by rw [hw]; rfl) h
      · exact parts_upd_keep i (by rw [hw]; rfl) h
    · rename_i p hw
      exact parts_release i (by rw [hw]; rfl) h
  · simp only [if_neg hlt]
    exact h

theorem travRun_mutex (fs : FsTree) (skipDirs : List Str) (now : Nat) :
    ∀ (sched : List Nat) (st : TravState), MutexInv st →
      MutexInv (travRun fs skipDirs now sched st) := by
  intro sched
  induction sched with
  | nil => intro st h; exact h
  | cons i rest ih =>
    intro st h
    exact ih (travStep fs skipDirs now st i) (travStep_mutex fs skipDirs now st i h)

theorem leVal_encLE (w n : Nat) (h : n < 256 ^ w) : leVal (encLE w n) = n := by
  induction w generalizing n with
  | zero =>
    interval_cases n
    rfl
  | succ w ih =>
    have hdiv : n / 256 < 256 ^ w := by
      rw [Nat.div_lt_iff_lt_mul (by norm_num)]
      calc n < 256 ^ (w + 1) := h
        _ = 256 ^ w * 256 := by ring
    simp only [encLE, leVal, List.foldr_cons]
    have := ih (n / 256) hdiv
    simp only [leVal] at this
    rw [this, Nat.mod_add_div]

theorem length_eraseP_key :
    ∀ (l : List (FsPath × LDirEntry)) (p : FsPath) (e : LDirEntry),
      alookup l p = some e →
      (l.eraseP (fun q => q.1 == p)).length + 1 = l.length := by
  intro l
  induction l with
  | nil => intro p e h; cases h
  | cons q rest ih =>
    intro p e h
    obtain ⟨k, v⟩ := q
    by_cases hk : k = p
    · have hpred : ((fun q : FsPath × LDirEntry => q.1 == p) (k, v)) = true := by
        simp [hk]
      simp [List.eraseP_cons, hpred]
    · have hpred : ((fun q : FsPath × LDirEntry => q.1 == p) (k, v)) = false := by
        simp [hk]
      simp only [alookup, if_neg hk] at h
      simp only [List.eraseP_cons, hpred, cond_false, List.length_cons]
      rw [← ih p e h]

theorem alookup_aupdate_self [DecidableEq κ] :
    ∀ (l : List (κ × α)) (k : κ) (v : α), alookup (aupdate l k v) k = some v := by
  intro l
  induction l with
  | nil => intro k v; simp [aupdate, alookup]
  | cons q rest ih =>
    intro k v
    obtain ⟨k₂, w⟩ := q
    by_cases hk : k₂ = k
    · simp [aupdate, alookup, hk]
    · simp only [aupdate, if_neg hk, alookup, if_neg hk]
      exact ih k v

theorem alookup_aupdate_ne [DecidableEq κ] :
    ∀ (l : List (κ × α)) (k : κ) (v : α) (k₂ : κ), k₂ ≠ k →
      alookup (aupdate l k v) k₂ = alookup l k₂ := by
  intro l
  induction l with
  | nil =>
    intro k v k₂ h
    have hne : ¬k = k₂ := fun hc => h hc.symm
    simp [aupdate, alookup, hne]
  | cons q rest ih =>
    intro k v k₂ h
    obtain ⟨k₃, w⟩ := q
    by_cases hk : k₃ = k
    · have hne : k₃ ≠ k₂ := fun hc => h (by rw [← hc, hk])
      simp only [aupdate, if_pos hk, alookup]
      rw [if_neg hne, if_neg hne]
    · simp only [aupdate, if_neg hk, alookup]
      by_cases hk₂ : k₃ = k₂
      · rw [if_pos hk₂, if_pos hk₂]
      · rw [if_neg hk₂, if_neg hk₂]
        exact ih k v k₂ h

theorem lookup_removeFile_ne :
    ∀ (fs : FsMap) (n n₂ : FName), n₂ ≠ n →
      lookupFile (removeFile fs n) n₂ = lookupFile fs n₂ := by
  intro fs
  induction fs with
  | nil => intro n n₂ h; rfl
  | cons q rest ih =>
    intro n n₂ h
    obtain ⟨m, b⟩ := q
    by_cases hm : m = n
    · have hmne : ¬m = n₂ := fun hc => h (hc.symm.trans hm)
      have hpred : (!((m, b).1 == n)) = false := by simp [hm]
      simp only [removeFile, List.filter_cons, hpred, lookupFile, alookup,
        if_neg hmne]
      exact ih n n₂ h
    · have hpred : (!((m, b).1 == n)) = true := by simp [hm]
      simp only [removeFile, List.filter_cons, hpred, lookupFile, alookup]
      by_cases hm₂ : m = n₂
      · rw [if_pos hm₂, if_pos hm₂]
      · rw [if_neg hm₂, if_neg hm₂]
        exact ih n n₂ h

-- ===========================================================================
-- Claim theorems
-- ===========================================================================

/-- C10: when `DiskCache::open` finds an existing cache file whose contents
fail to deserialize, it falls back to a fresh empty cache AND deletes the
cache file from disk (`fs::remove_file`) before returning — the corrupt or
old-format file is removed by the very act of opening it. -/
theorem c10_corrupt_cache_file_deleted (data : List Nat) (now : Nat)
    (h : decodeDiskCache data = none) :
    openDisk (some data) now = (freshDiskCache now, none) := by
  simp [openDisk, h]

/-- C10 witness: the empty byte string does not deserialize, and opening it
yields the fresh cache with the file removed. -/
theorem c10_corrupt_cache_file_deleted_witness :
    decodeDiskCache [] = none ∧ openDisk (some []) 5 = (freshDiskCache 5, none) :=
  ⟨by decide, c10_corrupt_cache_file_deleted [] 5 (by decide)⟩

/-- C9: every tree-walking output routine — the ASCII tree (`print_tree`),
the colored tree (`print_colored_tree`) and the JSON builder
(`populate_json`) — terminates on every cache, including one whose children
lists are self-referential or cyclic (`joinPath` maps an empty or `"."` child
name back to the parent path): the visited-path guard expands each path at
most once, so recursion depth is bounded by the number of entries and the
fueled walkers complete within `entries.length + 1`. -/
theorem c9_renderers_terminate (dc : DiskCacheM) :
    (printTree dc.entries (dc.entries.length + 1) dc.root [] [] true).isSome ∧
    (printColoredTree dc.entries (dc.entries.length + 1) dc.root [] []
      true).isSome ∧
    (populateJson dc.entries (dc.entries.length + 1) dc.root []).isSome := by
  have hb : unvisitedCount dc.entries [] < dc.entries.length + 1 :=
    lt_of_le_of_lt (List.countP_le_length _) (Nat.lt_succ_self _)
  exact ⟨printTree_isSome _ _ _ _ _ _ hb,
    printColoredTree_isSome _ _ _ _ _ _ hb,
    populateJson_isSome _ _ _ _ hb⟩

/-- C3: `get_entry` panics on an offset beyond the mapped region — the Rust
slice `&mmap[offset..]` is taken before the offset is validated against the
mapping's size, so a stale or adversarial offset is not treated as absent but
aborts. (The 4-byte prefix and declared payload length ARE validated; the
offset is not.) -/
theorem c3_oob_offset_panics : getEntry c3cache [[99]] = .panicked := by decide

/-- C1: a worker exits while another worker still holds a claim whose
directory will enqueue more work. Under schedule `[0,0,1]`, worker 0 pops and
claims the root and is mid-enumeration; worker 1 then polls the empty queue
once and exits (`dfs_worker` breaks on the first empty poll, with no in-flight
check). One more step of worker 0 pushes the subdirectory onto the queue —
work that arrives after worker 1 already exited. -/
theorem c1_worker_exits_while_claim_held :
    (travRun c1fs [] 0 [0, 0, 1] (travInit [[114]] 2)).workers 1 = WStat.done ∧
    (travRun c1fs [] 0 [0, 0, 1] (travInit [[114]] 2)).in_progress = [[[114]]] ∧
    (travRun c1fs [] 0 [0, 0, 1, 0] (travInit [[114]] 2)).queue =
      [[[114], [97]]] ∧
    (travRun c1fs [] 0 [0, 0, 1, 0] (travInit [[114]] 2)).workers 1 =
      WStat.done := by
  decide

/-- C2 counterexample: with the same directory queued twice, running the
worker to completion processes and writes it into the shared cache TWICE —
the claim is released after processing, so the second pop re-claims and
re-processes the path instead of being a no-op. -/
theorem c2_counterexample_reprocessed :
    ((travRun c2fs [] 0 [0, 0, 0, 0, 0, 0, 0, 0, 0] c2start).writes.map
      (·.1)) = [[[112]], [[112]]] ∧
    (travRun c2fs [] 0 [0, 0, 0, 0, 0, 0, 0, 0, 0] c2start).workers 0 =
      WStat.done := by
  decide

/-- C2 amended: the claim set gives mutual exclusion — in every state reachable
from a traversal start, no two workers hold a claim on the same path and every
claimed path is in the claim set — and a pop attempt on a currently-claimed
path is a no-op: the worker drops the path and returns to its loop, leaving
queue, claim set and cache writes untouched. (Exactly-once across the whole
traversal does NOT hold: the claim is released after processing, see the
counterexample.) -/
theorem c2_amended_mutual_exclusion :
    (∀ (fs : FsTree) (skipDirs : List Str) (now : Nat) (sched : List Nat)
        (root : FsPath) (n : Nat),
      MutexInv (travRun fs skipDirs now sched (travInit root n))) ∧
    (∀ (fs : FsTree) (skipDirs : List Str) (now : Nat) (st : TravState)
        (i : Nat) (p : FsPath), i < st.numWorkers →
      st.workers i = WStat.hasPath p → p ∈ st.in_progress →
      travStep fs skipDirs now st i =
        { st with workers := updWorker st.workers i WStat.atLoop }) := by
  constructor
  · intro fs skipDirs now sched root n
    refine travRun_mutex fs skipDirs now sched (travInit root n) ⟨?_, ?_⟩
    · intro i j p hij hc
      simp [travInit, claimedOf] at hc
    · intro i p hc
      simp [travInit, claimedOf] at hc
  · intro fs skipDirs now st i p hlt hw hp
    unfold travStep
    rw [if_pos hlt, hw]
    simp only [if_pos hp]

/-- C2 amended witness: a concrete reachable state satisfies the invariant,
and a concrete pop-of-a-claimed-path step is a no-op. -/
theorem c2_amended_mutual_exclusion_witness :
    MutexInv (travRun c2fs [] 0 [0, 0] (travInit [[112]] 1)) ∧
    travStep c2fs [] 0 c2heldState 0 =
      { c2heldState with workers := updWorker c2heldState.workers 0 WStat.atLoop } :=
  ⟨c2_amended_mutual_exclusion.1 c2fs [] 0 [0, 0] [[112]] 1,
   c2_amended_mutual_exclusion.2 c2fs [] 0 c2heldState 0 [[112]] (by decide) rfl
     (by decide)⟩

/-- C4 counterexample: with a fresh (10-minute-old) non-empty cache and
`force = false`, `traverse_disk` takes the freshness short-circuit — but the
returned cache's `root` and `last_scanned_root` have been overwritten with the
current directory (`b`), so they are NOT the unchanged existing values
(`a`). -/
theorem c4_counterexample_root_mutated :
    traverseDisk [99] c4cache false [[98]] 600 [] [] 1 [] =
      .ok ({ c4cache with root := [[98]], last_scanned_root := [[98]] },
        { is_first_run := false, scan_root := [[98]], cache_used := true,
          total_dirs := 1, threads_used := 0 }) ∧
    c4cache.root ≠ [[98]] ∧ c4cache.last_scanned_root ≠ [[98]] := by
  decide

/-- C4 amended: with a non-empty cache whose signed age is under one hour and
`force = false`, no traversal runs and the cache is returned with `entries`
and `last_scan` unchanged — but with `root` and `last_scanned_root`
overwritten with the scan root (the current directory), because
`traverse_disk` mutates them before the freshness check; with `force = true`
the short-circuit is skipped and a traversal runs regardless of age. -/
theorem c4_amended_freshness (cache : DiskCacheM) (drive : Str)
    (currentDir : FsPath) (now : Nat) (fs : FsTree) (skipDirs : List Str)
    (n : Nat) (sched : List Nat)
    (hne : cache.entries ≠ [])
    (hfresh : (now : Int) - (cache.last_scan : Int) < 3600) :
    traverseDisk drive cache false currentDir now fs skipDirs n sched =
      .ok ({ cache with root := currentDir, last_scanned_root := currentDir },
        { is_first_run := false, scan_root := currentDir, cache_used := true,
          total_dirs := cache.entries.length, threads_used := 0 }) ∧
    (traverseDisk drive cache true currentDir now fs skipDirs n sched).map
      (fun r => r.2.cache_used) = .ok false := by
  have hie : cache.entries.isEmpty = false := by
    cases hE : cache.entries with
    | nil => exact absurd hE hne
    | cons a l => rfl
  constructor
  · simp [traverseDisk, hie, hfresh]
  · simp [traverseDisk, hie, hfresh, Except.map]

/-- C4 witness: the amended behavior at the concrete C4 scenario. -/
theorem c4_amended_freshness_witness :
    traverseDisk [99] c4cache false [[98]] 600 [] [] 1 [] =
      .ok ({ c4cache with root := [[98]], last_scanned_root := [[98]] },
        { is_first_run := false, scan_root := [[98]], cache_used := true,
          total_dirs := c4cache.entries.length, threads_used := 0 }) ∧
    (traverseDisk [99] c4cache true [[98]] 600 [] [] 1 []).map
      (fun r => r.2.cache_used) = .ok false :=
  c4_amended_freshness c4cache [99] [[98]] 600 [] [] 1 [] (by decide) (by decide)

/-- C5 amended: during bulk export, records that are absent or whose bounds
fall outside the mapping (`readRecord` = absent) are skipped — every path
whose record decodes contributes exactly its entry — but an in-bounds record
that FAILS to decode makes the whole `get_all` call return an error (the `?`
on `get_entry` propagates it), rather than skipping just that entry. Stated
for a freshly opened cache (empty hot window, distinct index keys, no
out-of-mapping offsets on the panic path). -/
theorem c5_amended_bulk_export (c : LazyCache)
    (hwin : c.entry_cache = [])
    (hnd : (c.index.offsets.map (·.1)).Nodup)
    (hnp : ∀ p ∈ c.index.offsets.map (·.1),
      readRecord c.index.offsets c.mmap p ≠ RecClass.panicC) :
    ((∀ p ∈ c.index.offsets.map (·.1),
        readRecord c.index.offsets c.mmap p ≠ RecClass.errC) →
      ∃ c₂, getAll c = .returned (.ok
        ((c.index.offsets.map (·.1)).foldl (fun a p =>
          match readRecord c.index.offsets c.mmap p with
          | RecClass.okC e => aupdate a p e
          | _ => a) [], c₂))) ∧
    ((∃ p ∈ c.index.offsets.map (·.1),
        readRecord c.index.offsets c.mmap p = RecClass.errC) →
      getAll c = .returned (.error ())) := by
  constructor
  · intro hne
    have h := getAllGo_ok c.index c.mmap (c.index.offsets.map (·.1)) c [] rfl
      rfl (fun p _ => by simp [hwin]) hnd (fun p hp => ⟨hnp p hp, hne p hp⟩)
    simpa [getAll] using h
  · intro hex
    have h := getAllGo_err c.index c.mmap (c.index.offsets.map (·.1)) c [] rfl
      rfl (fun p _ => by simp [hwin]) hnd hnp hex
    simpa [getAll] using h

/-- C5 counterexample: although the record of path `g` decodes successfully,
the single malformed record of path `b` makes the whole `get_all` call return
an error — it does not return the successfully decoded entries. -/
theorem c5_counterexample_get_all_fails :
    getAll c5cache = .returned (.error ()) ∧
    readRecord c5cache.index.offsets c5cache.mmap [[103]] =
      RecClass.okC c5entry := by
  decide

/-- C5 witness: the amended claim applied to the concrete caches — all-decodable
export succeeds with exactly the decoded entry, and the mixed cache's export
fails as a whole. -/
theorem c5_amended_bulk_export_witness :
    (∃ c₂, getAll c5okcache = .returned (.ok
      ((c5okcache.index.offsets.map (·.1)).foldl (fun a p =>
        match readRecord c5okcache.index.offsets c5okcache.mmap p with
        | RecClass.okC e => aupdate a p e
        | _ => a) [], c₂))) ∧
    getAll c5cache = .returned (.error ()) :=
  ⟨(c5_amended_bulk_export c5okcache rfl (by decide) (by decide)).1 (by decide),
   (c5_amended_bulk_export c5cache rfl (by decide) (by decide)).2
     ⟨[[98]], by decide, by decide⟩⟩

/-- C6: atomic index/cache persistence for both save paths. The serialized
state is written to the sibling `.tmp` file, synced, and only then renamed
over the destination: every prefix of the effect list that stops before the
rename leaves the destination file byte-for-byte unchanged, and after the
rename the destination holds exactly the serialized bytes, which deserialize
back to the saved state (flushed, with the `serde(skip)` fields at their
deserialization defaults) — no partially-written file is ever observable as
the canonical file. (For `DiskCache::save` the destination must not itself
carry the `.tmp` extension, or `with_extension` would collide; the canonical
cache file uses `.dat`.) -/
theorem c6_atomic_save (c : DiskCacheM) (path : FName) (fs : FsMap)
    (lc : LazyCache) (cp : FName) (fs₂ : FsMap)
    (hext : path.2 ≠ strTmp)
    (hvc : validDiskCache (flushPending c) = true)
    (hvi : validIndex lc.index = true) :
    ((∀ k, k ≤ 3 →
      lookupFile (runOps ((saveDisk c path).2.take k) fs) path =
        lookupFile fs path) ∧
     lookupFile (runOps (saveDisk c path).2 fs) path =
       some (encodeDiskCache (flushPending c)) ∧
     decodeDiskCache (encodeDiskCache (flushPending c)) =
       some { flushPending c with pending_writes := [], flush_threshold := 0 }) ∧
    ((∀ k, k ≤ 3 →
      lookupFile (runOps ((saveIndexOps lc cp).take k) fs₂) (withExt cp strIdx) =
        lookupFile fs₂ (withExt cp strIdx)) ∧
     lookupFile (runOps (saveIndexOps lc cp) fs₂) (withExt cp strIdx) =
       some (encodeIndex lc.index) ∧
     decodeIndex (encodeIndex lc.index) = some (lc.index, [])) := by
  have hne : path ≠ (path.1, strTmp) := fun hc => hext (by rw [hc])
  have hne₂ : ((cp.1, strIdx) : FName) ≠ (cp.1, strTmp) := fun hc => by
    have : strIdx = strTmp := congrArg Prod.snd hc
    exact absurd this (by decide)
  refine ⟨⟨?_, ?_, ?_⟩, ⟨?_, ?_, ?_⟩⟩
  · intro k hk
    interval_cases k
    · rfl
    · simp only [saveDisk, runOps, List.take, List.foldl, lookupFile, setFile,
        withExt]
      exact alookup_aupdate_ne fs (path.1, strTmp) [] path hne
    · simp only [saveDisk, runOps, List.take, List.foldl, lookupFile, setFile,
        withExt]
      rw [alookup_aupdate_ne _ _ _ _ hne, alookup_aupdate_ne _ _ _ _ hne]
    · simp only [saveDisk, runOps, List.take, List.foldl, lookupFile, setFile,
        withExt]
      rw [alookup_aupdate_ne _ _ _ _ hne, alookup_aupdate_ne _ _ _ _ hne]
  · simp only [saveDisk, runOps, List.foldl, lookupFile, setFile, withExt]
    rw [show alookup (aupdate (aupdate fs (path.1, strTmp) [])
        (path.1, strTmp) (encodeDiskCache (flushPending c))) (path.1, strTmp) =
        some (encodeDiskCache (flushPending c)) from alookup_aupdate_self _ _ _]
    exact alookup_aupdate_self _ _ _
  · exact decodeDiskCache_encodeDiskCache (flushPending c) hvc
  · intro k hk
    interval_cases k
    · rfl
    · simp only [saveIndexOps, runOps, List.take, List.foldl, lookupFile,
        setFile, withExt]
      exact alookup_aupdate_ne fs₂ (cp.1, strTmp) [] (cp.1, strIdx) hne₂
    · simp only [saveIndexOps, runOps, List.take, List.foldl, lookupFile,
        setFile, withExt]
      rw [alookup_aupdate_ne _ _ _ _ hne₂, alookup_aupdate_ne _ _ _ _ hne₂]
    · simp only [saveIndexOps, runOps, List.take, List.foldl, lookupFile,
        setFile, withExt]
      rw [alookup_aupdate_ne _ _ _ _ hne₂, alookup_aupdate_ne _ _ _ _ hne₂]
  · simp only [saveIndexOps, runOps, List.foldl, lookupFile, setFile, withExt]
    rw [show alookup (aupdate (aupdate fs₂ (cp.1, strTmp) [])
        (cp.1, strTmp) (encodeIndex lc.index)) (cp.1, strTmp) =
        some (encodeIndex lc.index) from alookup_aupdate_self _ _ _]
    exact alookup_aupdate_self _ _ _
  · have h := decodeIndex_encodeIndex lc.index [] hvi
    simpa using h

/-- C6 witness: both save paths at a concrete cache, index and file system. -/
theorem c6_atomic_save_witness :
    lookupFile (runOps (saveDisk (freshDiskCache 0) ([100], [100, 97, 116])).2
        []) ([100], [100, 97, 116]) =
      some (encodeDiskCache (flushPending (freshDiskCache 0))) ∧
    lookupFile (runOps (saveIndexOps (openLazy none none ([], [])) ([], [])) [])
        (withExt ([], []) strIdx) =
      some (encodeIndex (openLazy none none ([], [])).index) := by
  have h := c6_atomic_save (freshDiskCache 0) ([100], [100, 97, 116]) []
    (openLazy none none ([], [])) ([], []) [] (by decide) (by decide) (by decide)
  exact ⟨h.1.2.1, h.2.2.1⟩

/-- A freshly appended, framed record reads back as decodable: the offset
returned by `append_entry` (the old file length) resolves to the 4-byte
little-endian prefix followed by the payload. -/
theorem readRecord_framed {e : LDirEntry} (key : FsPath)
    (file payload : List Nat)
    (hlen : payload.length < 256 ^ 4)
    (hdec : decodeEntry payload = some (e, [])) :
    readRecord [(key, file.length)]
      (some (file ++ (encLE 4 payload.length ++ payload))) key =
      RecClass.okC e := by
  have h4 : (encLE 4 payload.length).length = 4 := encLE_length 4 _
  have hdrop : (file ++ (encLE 4 payload.length ++ payload)).drop file.length =
      encLE 4 payload.length ++ payload := List.drop_left _ _
  have hslicelen : ((file ++ (encLE 4 payload.length ++ payload)).drop
      file.length).length = 4 + payload.length := by
    rw [hdrop, List.length_append, h4]
  have htake : ((file ++ (encLE 4 payload.length ++ payload)).drop
      file.length).take 4 = encLE 4 payload.length := by
    rw [hdrop]
    exact List.take_left' h4
  have hdrop₄ : ((file ++ (encLE 4 payload.length ++ payload)).drop
      file.length).drop 4 = payload := by
    rw [hdrop]
    exact List.drop_left' h4
  have hlv : leVal (encLE 4 payload.length) = payload.length :=
    leVal_encLE 4 _ hlen
  have hmlen : (file ++ (encLE 4 payload.length ++ payload)).length =
      file.length + (4 + payload.length) := by
    simp [List.length_append, h4]
  unfold readRecord
  rw [show alookup [(key, file.length)] key = some file.length from by
    simp [alookup]]
  dsimp only
  rw [if_neg (by omega :
    ¬(file ++ (encLE 4 payload.length ++ payload)).length < file.length)]
  rw [if_neg (by rw [hslicelen]; omega)]
  rw [if_neg (by rw [hslicelen, htake, hlv]; omega)]
  rw [htake, hlv, hdrop₄, List.take_length, hdec]

/-- C7: entry codec round trip through the append log. For every valid
directory entry, appending it to a data file of any prior contents
(`append_entry` writes the 4-byte little-endian length prefix then the
serialized payload, returning the offset where the prefix begins) and then
reading that offset back through `get_entry`'s decode path yields the same
entry, field for field, with the entry inserted into the hot window. -/
theorem c7_codec_roundtrip (e : LDirEntry) (file : List Nat) (key : FsPath)
    (hv : validEntry e = true) :
    getEntry
      { index := { RkyvCacheIndex.new with
          offsets := [(key, (appendEntry file e).2)] },
        mmap := some (appendEntry file e).1, data_path := ([], []),
        entry_cache := [], entry_cache_size := 1000 } key =
      .returned (.ok (some e),
        { index := { RkyvCacheIndex.new with
            offsets := [(key, (appendEntry file e).2)] },
          mmap := some (appendEntry file e).1, data_path := ([], []),
          entry_cache := [(key, e)], entry_cache_size := 1000 }) := by
  have hlen : (encodeEntry e).length < 256 ^ 4 := by
    simp only [validEntry, Bool.and_eq_true, decide_eq_true_eq] at hv
    exact hv.2
  have hdec : decodeEntry (encodeEntry e) = some (e, []) := by
    simpa using decodeEntry_encodeEntry e [] hv
  have hm : (appendEntry file e).1 =
      file ++ (encLE 4 (encodeEntry e).length ++ encodeEntry e) := by
    simp [appendEntry]
  have hoff : (appendEntry file e).2 = file.length := rfl
  have hrr := readRecord_framed key file (encodeEntry e) hlen hdec
  have hge := getEntry_miss
    { index := { RkyvCacheIndex.new with
        offsets := [(key, (appendEntry file e).2)] },
      mmap := some (appendEntry file e).1, data_path := ([], []),
      entry_cache := [], entry_cache_size := 1000 } key rfl
  rw [hge]
  dsimp only
  rw [hoff, hm, hrr]
  dsimp only
  rw [if_neg (by simp : ¬(1000 < ([(key, e)] : List (FsPath × LDirEntry)).length))]

/-- C7 witness: the round trip at a concrete entry, file and key. -/
theorem c7_codec_roundtrip_witness :
    validEntry c7entry = true ∧
    getEntry
      { index := { RkyvCacheIndex.new with
          offsets := [([[107]], (appendEntry [1, 2, 3] c7entry).2)] },
        mmap := some (appendEntry [1, 2, 3] c7entry).1, data_path := ([], []),
        entry_cache := [], entry_cache_size := 1000 } [[107]] =
      .returned (.ok (some c7entry),
        { index := { RkyvCacheIndex.new with
            offsets := [([[107]], (appendEntry [1, 2, 3] c7entry).2)] },
          mmap := some (appendEntry [1, 2, 3] c7entry).1, data_path := ([], []),
          entry_cache := [([[107]], c7entry)], entry_cache_size := 1000 }) :=
  ⟨by decide, c7_codec_roundtrip c7entry [1, 2, 3] [[107]] (by decide)⟩

/-- A hot-window hit promotes the entry to the front and returns a clone. -/
theorem getEntry_hit (c : LazyCache) (p : FsPath) (e : LDirEntry)
    (h : alookup c.entry_cache p = some e) :
    getEntry c p = .returned (.ok (some e),
      { c with entry_cache :=
          (p, e) :: c.entry_cache.eraseP (fun q => q.1 == p) }) := by
  simp [getEntry, h]

theorem mem_map_fst_dropLast₂ (a b : FsPath × LDirEntry)
    (t : List (FsPath × LDirEntry)) (ht : t ≠ []) :
    b.1 ∈ ((a :: b :: t).dropLast).map (·.1) := by
  cases t with
  | nil => exact absurd rfl ht
  | cons x xs =>
    have hd : (a :: b :: x :: xs).dropLast = a :: b :: (x :: xs).dropLast := rfl
    rw [hd]
    exact List.mem_map_of_mem _ (List.mem_cons_of_mem _ (List.mem_cons_self _ _))

/-- C8: the hot-entry window LRU discipline. (1) `get_entry` never grows the
window beyond its capacity and never changes the capacity. (2) Loading a new
entry into a full window evicts exactly the least-recently-used element (the
back): the new window is the push-front with the last element dropped. (3) A
hit moves the entry to the most-recently-used front. (4) Promotion protects
from the next eviction: after a hit on `p` in a full window of at least two
entries, loading one new entry evicts the back but keeps `p`. (5) `open`
creates the window with the default capacity 1000. -/
theorem c8_lru_window :
    (∀ (c : LazyCache) (p : FsPath)
        (out : Except Unit (Option LDirEntry)) (c₂ : LazyCache),
      getEntry c p = .returned (out, c₂) →
      c.entry_cache.length ≤ c.entry_cache_size →
      c₂.entry_cache.length ≤ c.entry_cache_size ∧
        c₂.entry_cache_size = c.entry_cache_size) ∧
    (∀ (c : LazyCache) (p : FsPath) (e : LDirEntry) (c₂ : LazyCache),
      alookup c.entry_cache p = none →
      c.entry_cache.length = c.entry_cache_size →
      getEntry c p = .returned (.ok (some e), c₂) →
      c₂.entry_cache = ((p, e) :: c.entry_cache).dropLast) ∧
    (∀ (c : LazyCache) (p : FsPath) (e : LDirEntry),
      alookup c.entry_cache p = some e →
      getEntry c p = .returned (.ok (some e),
        { c with entry_cache :=
            (p, e) :: c.entry_cache.eraseP (fun q => q.1 == p) })) ∧
    (∀ (c c₁ c₂ : LazyCache) (p q : FsPath) (e e₂ : LDirEntry),
      alookup c.entry_cache p = some e →
      2 ≤ c.entry_cache.length →
      c.entry_cache.length = c.entry_cache_size →
      getEntry c p = .returned (.ok (some e), c₁) →
      alookup c₁.entry_cache q = none →
      getEntry c₁ q = .returned (.ok (some e₂), c₂) →
      p ∈ c₂.entry_cache.map (·.1)) ∧
    (∀ (idx dat : Option (List Nat)) (dp : FName),
      (openLazy idx dat dp).entry_cache_size = 1000) := by
  have hmissString : ∀ (c : LazyCache) (p : FsPath) (e : LDirEntry)
      (c₂ : LazyCache), alookup c.entry_cache p = none →
      c.entry_cache.length = c.entry_cache_size →
      getEntry c p = .returned (.ok (some e), c₂) →
      c₂.entry_cache = ((p, e) :: c.entry_cache).dropLast := by
    intro c p e c₂ hmiss hfull hge
    rw [getEntry_miss c p hmiss] at hge
    cases hclass : readRecord c.index.offsets c.mmap p with
    | panicC => rw [hclass] at hge; cases hge
    | absentC => rw [hclass] at hge; simp at hge
    | errC => rw [hclass] at hge; simp at hge
    | okC e₃ =>
      rw [hclass] at hge
      simp only [RustOutcome.returned.injEq, Prod.mk.injEq, Except.ok.injEq,
        Option.some.injEq] at hge
      obtain ⟨he₃, hc₂⟩ := hge
      subst he₃
      rw [← hc₂]
      have hcap : c.entry_cache_size < ((p, e₃) :: c.entry_cache).length := by
        simp only [List.length_cons]
        omega
      simp only [if_pos hcap]
  refine ⟨?_, hmissString, fun c p e h => getEntry_hit c p e h, ?_, ?_⟩
  · intro c p out c₂ hge hle
    cases hhit : alookup c.entry_cache p with
    | some e =>
      rw [getEntry_hit c p e hhit] at hge
      simp only [RustOutcome.returned.injEq, Prod.mk.injEq] at hge
      obtain ⟨-, hc₂⟩ := hge
      rw [← hc₂]
      have hlen := length_eraseP_key c.entry_cache p e hhit
      constructor
      · simp only [List.length_cons]
        omega
      · rfl
    | none =>
      rw [getEntry_miss c p hhit] at hge
      cases hclass : readRecord c.index.offsets c.mmap p with
      | panicC => rw [hclass] at hge; cases hge
      | absentC =>
        rw [hclass] at hge
        simp only [RustOutcome.returned.injEq, Prod.mk.injEq] at hge
        obtain ⟨-, hc₂⟩ := hge
        rw [← hc₂]
        exact ⟨hle, rfl⟩
      | errC =>
        rw [hclass] at hge
        simp only [RustOutcome.returned.injEq, Prod.mk.injEq] at hge
        obtain ⟨-, hc₂⟩ := hge
        rw [← hc₂]
        exact ⟨hle, rfl⟩
      | okC e₃ =>
        rw [hclass] at hge
        simp only [RustOutcome.returned.injEq, Prod.mk.injEq] at hge
        obtain ⟨-, hc₂⟩ := hge
        rw [← hc₂]
        by_cases hcap : c.entry_cache_size < ((p, e₃) :: c.entry_cache).length
        · simp only [if_pos hcap]
          constructor
          · rw [List.length_dropLast]
            simp only [List.length_cons]
            omega
          · trivial
        · simp only [if_neg hcap]
          constructor
          · simp only [List.length_cons] at hcap ⊢
            omega
          · trivial
  · intro c c₁ c₂ p q e e₂ hhit hlen₂ hfull hge₁ hmiss₂ hge₂
    rw [getEntry_hit c p e hhit] at hge₁
    simp only [RustOutcome.returned.injEq, Prod.mk.injEq] at hge₁
    obtain ⟨-, hc₁⟩ := hge₁
    have hc₁cache : c₁.entry_cache =
        (p, e) :: c.entry_cache.eraseP (fun r => r.1 == p) := by
      rw [← hc₁]
    have hc₁size : c₁.entry_cache_size = c.entry_cache_size := by
      rw [← hc₁]
    have hlenp := length_eraseP_key c.entry_cache p e hhit
    have hc₁full : c₁.entry_cache.length = c₁.entry_cache_size := by
      rw [hc₁cache, hc₁size, List.length_cons]
      omega
    have hc₂cache := hmissString c₁ q e₂ c₂ hmiss₂ hc₁full hge₂
    rw [hc₂cache, hc₁cache]
    refine mem_map_fst_dropLast₂ (q, e₂) (p, e) _ ?_
    intro hnil
    have : (c.entry_cache.eraseP (fun r => r.1 == p)).length = 0 := by
      rw [hnil]; rfl
    omega
  · intro idx dat dp
    rfl

/-- C8 witness: all five parts of the LRU discipline at the concrete window. -/
theorem c8_lru_window_witness :
    (c8after.entry_cache.length ≤ c8cache.entry_cache_size ∧
      c8after.entry_cache_size = c8cache.entry_cache_size) ∧
    c8after.entry_cache = (([[51]], c8w3) :: c8cache.entry_cache).dropLast ∧
    getEntry c8cache [[50]] = .returned (.ok (some c8w2),
      { c8cache with entry_cache :=
          ([[50]], c8w2) ::
            c8cache.entry_cache.eraseP (fun q => q.1 == [[50]]) }) ∧
    [[50]] ∈ c8prot.entry_cache.map (·.1) ∧
    (openLazy none none ([], [])).entry_cache_size = 1000 := by
  have h := c8_lru_window
  exact ⟨h.1 c8cache [[51]] (.ok (some c8w3)) c8after (by decide) (by decide),
    h.2.1 c8cache [[51]] c8w3 c8after (by decide) (by decide) (by decide),
    h.2.2.1 c8cache [[50]] c8w2 (by decide),
    h.2.2.2.1 c8cache c8hit c8prot [[50]] [[51]] c8w2 c8w3 (by decide)
      (by decide) (by decide) (by decide) (by decide) (by decide),
    h.2.2.2.2 none none ([], [])⟩

